import Mathlib

/-!
Shallow embedding of the signature engine of the DigitalSignatureSystem
repository (RSA-PSS, DSA, ECDSA over secp256k1, and the algorithm factory),
together with proofs and refutations of the specification claims.

Conventions of the embedding:
* JS `BigInt` values are `ℤ`; `%` is truncated remainder (`Int.tmod`) and `/`
  is truncated division (`Int.tdiv`), matching BigInt semantics.
* JS 32-bit integer operations (`| 0`, `<<`, `>>>`, `&`, `^`) are modelled on
  `ℤ` through an explicit `ToInt32` conversion.
* JS strings are `List Char`; `Uint8Array` values are `List ℕ` of bytes.
* Loops are translated to fuelled structural recursions; the fuel supplied at
  each call site dominates the number of iterations the source loop performs.
* `async` functions are pure (every awaited primitive is deterministic), and
  the host hashing primitive (SHA-256 / HMAC via WebCrypto) is passed as an
  explicit function argument where the source selects it from the environment;
  the non-browser fallback hashes (`simpleHash`, `simpleHashBytes`,
  `simpleSha256`) are embedded concretely because they are plain arithmetic.
* Code that throws is modelled with `Except`/`Option`; a `try/catch` appears
  as a `match` on that value.
-/

namespace DigSig

set_option maxRecDepth 100000

/-- JS BigInt `%`: remainder truncated toward zero (sign of the dividend). -/
def jsRem (a b : ℤ) : ℤ := Int.tmod a b

/-- JS BigInt `/`: division truncated toward zero. -/
def jsQuot (a b : ℤ) : ℤ := Int.tdiv a b

/-- ECMAScript `ToInt32`: reduce mod `2^32` into `[-2^31, 2^31)`. -/
def toInt32 (x : ℤ) : ℤ :=
  let u := Int.emod x 4294967296
  if u < 2147483648 then u else u - 4294967296

/-- ECMAScript `ToUint32`: reduce mod `2^32` into `[0, 2^32)`, as a `ℕ`. -/
def toUint32 (x : ℤ) : ℕ := (Int.emod x 4294967296).toNat

/-- JS `x << k` on 32-bit integers. -/
def jsShl (x : ℤ) (k : ℕ) : ℤ := toInt32 (toInt32 x * 2 ^ (k % 32))

/-- JS `x >>> k` (unsigned right shift; the result is non-negative). -/
def jsShrU (x : ℤ) (k : ℕ) : ℤ := Int.ofNat (toUint32 x / 2 ^ (k % 32))

/-- JS `x >> k` (arithmetic right shift). -/
def jsShrS (x : ℤ) (k : ℕ) : ℤ := Int.fdiv (toInt32 x) (2 ^ (k % 32))

/-- JS `x & y` on 32-bit integers. -/
def jsAnd (a b : ℤ) : ℤ := toInt32 (Int.ofNat (Nat.land (toUint32 a) (toUint32 b)))

/-- JS `x | y` on 32-bit integers; `x | 0` is the `ToInt32` coercion. -/
def jsOr (a b : ℤ) : ℤ := toInt32 (Int.ofNat (Nat.lor (toUint32 a) (toUint32 b)))

/-- JS `x ^ y` on 32-bit integers. -/
def jsXor (a b : ℤ) : ℤ := toInt32 (Int.ofNat (Nat.xor (toUint32 a) (toUint32 b)))

/-- JS `~x` on 32-bit integers. -/
def jsNot (a : ℤ) : ℤ := toInt32 (-(toInt32 a) - 1)

/- ## Number formatting (`toString(16)`, `toString(10)`, `toString(2)`, `padStart`) -/

/-- One lowercase hexadecimal digit character. -/
def hexDigitChar (n : ℕ) : Char :=
  if n < 10 then Char.ofNat (48 + n) else Char.ofNat (87 + n)

/-- One decimal digit character. -/
def decDigitChar (n : ℕ) : Char := Char.ofNat (48 + n)

/-- Accumulator loop producing base-16 digits (most significant first). -/
def natToHexAux : ℕ → ℕ → List Char → List Char
  | 0, _, acc => acc
  | _ + 1, 0, acc => acc
  | fuel + 1, n + 1, acc =>
    natToHexAux fuel ((n + 1) / 16) (hexDigitChar ((n + 1) % 16) :: acc)

/-- `n.toString(16)` for a natural number. -/
def natToHex (n : ℕ) : List Char :=
  if n = 0 then ['0'] else natToHexAux (n + 1) n []

/-- JS `x.toString(16)` (negative values print a leading minus sign). -/
def intToHex (x : ℤ) : List Char :=
  if x < 0 then '-' :: natToHex x.natAbs else natToHex x.toNat

/-- Accumulator loop producing base-10 digits (most significant first). -/
def natToDecAux : ℕ → ℕ → List Char → List Char
  | 0, _, acc => acc
  | _ + 1, 0, acc => acc
  | fuel + 1, n + 1, acc =>
    natToDecAux fuel ((n + 1) / 10) (decDigitChar ((n + 1) % 10) :: acc)

/-- `n.toString()` for a natural number. -/
def natToDec (n : ℕ) : List Char :=
  if n = 0 then ['0'] else natToDecAux (n + 1) n []

/-- JS `x.toString()` for a BigInt. -/
def intToDec (x : ℤ) : List Char :=
  if x < 0 then '-' :: natToDec x.natAbs else natToDec x.toNat

/-- Accumulator loop producing binary digits `0`/`1` (most significant first). -/
def natToBitsAux : ℕ → ℕ → List ℕ → List ℕ
  | 0, _, acc => acc
  | _ + 1, 0, acc => acc
  | fuel + 1, n + 1, acc => natToBitsAux fuel ((n + 1) / 2) ((n + 1) % 2 :: acc)

/-- `n.toString(2)` as the list of binary digits (MSB first); the sources index
into this string character by character. -/
def natToBits (n : ℕ) : List ℕ :=
  if n = 0 then [0] else natToBitsAux (n + 1) n []

/-- JS `x.toString(2)` digit list; a negative value contributes a leading
non-digit marker (the minus sign), encoded as `2` so that it is not `1`. -/
def intToBits (x : ℤ) : List ℕ :=
  if x < 0 then 2 :: natToBits x.natAbs else natToBits x.toNat

/-- Value of an MSB-first binary digit list. -/
def bitsVal (bits : List ℕ) : ℕ := bits.foldl (fun a b => 2 * a + b) 0

/-- Value of an MSB-first decimal digit character list (digits only). -/
def decVal (s : List Char) : ℕ := s.foldl (fun a c => 10 * a + (c.toNat - 48)) 0

/-- JS `String.prototype.padStart(len, c)`. -/
def padStart (s : List Char) (len : ℕ) (c : Char) : List Char :=
  List.replicate (len - s.length) c ++ s

/-- `n.toString(2).length`: the bit-length helper used throughout the sources
(note `jsBitLength 0 = 1` because `"0"` has length 1). -/
def jsBitLength (x : ℤ) : ℕ :=
  if x < 0 then (natToBits x.natAbs).length + 1 else (natToBits x.toNat).length

/- ## Bytes and hex strings -/

/-- Value of one hex digit character, if valid (`0-9`, `a-f`, `A-F`). -/
def hexDigitVal (c : Char) : Option ℕ :=
  if 48 ≤ c.toNat ∧ c.toNat ≤ 57 then some (c.toNat - 48)
  else if 97 ≤ c.toNat ∧ c.toNat ≤ 102 then some (c.toNat - 87)
  else if 65 ≤ c.toNat ∧ c.toNat ≤ 70 then some (c.toNat - 55)
  else none

/-- JS `parseInt(two-char-string, 16)` as stored into a `Uint8Array` slot:
an invalid first digit gives `NaN`, stored as `0`; an invalid second digit
makes `parseInt` stop after the first digit (prefix parsing). -/
def hexPairByte (c1 c2 : Char) : ℕ :=
  match hexDigitVal c1, hexDigitVal c2 with
  | some a, some b => 16 * a + b
  | some a, none => a
  | none, _ => 0

/-- `hexToBytes`: prepend `'0'` when the length is odd, then read pairs.
This loop is shared verbatim by the RSA and DSA classes. -/
def hexPairsToBytes : List Char → List ℕ
  | c1 :: c2 :: rest => hexPairByte c1 c2 :: hexPairsToBytes rest
  | [c] => hexPairByte c '0' :: []
  | [] => []

/-- `hexToBytes(hex)` (RSA.ts lines 832-844 and DSA lines 725-736). -/
def hexToBytes (hex : List Char) : List ℕ :=
  if hex.length % 2 ≠ 0 then hexPairsToBytes ('0' :: hex) else hexPairsToBytes hex

/-- `bytesToHex(bytes)`: each byte printed as two lowercase hex characters. -/
def bytesToHex (bytes : List ℕ) : List Char :=
  bytes.flatMap (fun b => padStart (natToHex b) 2 '0')

/-- Big-endian byte-fold used all over the sources
(`result = (result << 8n) | BigInt(bytes[i])`). -/
def bytesToIntBE (bytes : List ℕ) : ℤ :=
  bytes.foldl (fun (acc : ℤ) (b : ℕ) => acc * 256 + (b : ℤ)) 0

/-- Parse a hex string to a BigInt the way `BigInt('0x' + s)` does, failing on
invalid digits (`none` models the thrown `SyntaxError`).  `BigInt('0x')` on the
empty string throws as well. -/
def jsParseHex (s : List Char) : Option ℤ :=
  if s.isEmpty then none
  else
    s.foldl
      (fun acc c =>
        match acc, hexDigitVal c with
        | some a, some d => some (16 * a + (d : ℤ))
        | _, _ => none)
      (some 0)

/-- Parse a decimal string the way `BigInt(s)` does: the empty string gives
`0n`, an optional leading minus sign, otherwise decimal digits only
(anything else throws, modelled as `none`). -/
def jsParseBigInt (s : List Char) : Option ℤ :=
  match s with
  | [] => some 0
  | '-' :: rest =>
    if rest ≠ [] ∧ rest.all (fun c => 48 ≤ c.toNat ∧ c.toNat ≤ 57) then
      some (-(decVal rest : ℤ))
    else none
  | _ =>
    if s.all (fun c => 48 ≤ c.toNat ∧ c.toNat ≤ 57) then some (decVal s : ℤ)
    else none

/- ===================================================================
   RSA module (src/algorithms/RSA.ts)
   =================================================================== -/

namespace RSA

/-- Loop of `RSA.modExp` (RSA.ts lines 665-674): square-and-multiply,
halving the exponent; fuelled (the fuel bounds the iteration count, the
loop itself stops when the exponent reaches zero). -/
def modExpGo (modulus : ℤ) : ℕ → ℤ → ℤ → ℤ → ℤ
  | 0, result, _, _ => result
  | fuel + 1, result, base, exponent =>
    if 0 < exponent then
      let result := if jsRem exponent 2 = 1 then jsRem (result * base) modulus else result
      modExpGo modulus fuel result (jsRem (base * base) modulus) (jsQuot exponent 2)
    else result

/-- `RSA.modExp(base, exponent, modulus)` (RSA.ts lines 659-677): special-case
`modulus = 1`, reduce the base, then run the loop. -/
def modExp (base exponent modulus : ℤ) : ℤ :=
  if modulus = 1 then 0
  else modExpGo modulus (exponent.toNat + 1) 1 (jsRem base modulus) exponent

/-- Loop of `RSA.modInverse` (extended Euclid, RSA.ts lines 693-700),
returning the final `(old_r, old_s)`; fuelled. -/
def modInverseGo : ℕ → ℤ → ℤ → ℤ → ℤ → ℤ × ℤ
  | 0, oldR, _, oldS, _ => (oldR, oldS)
  | fuel + 1, oldR, r, oldS, s =>
    if r = 0 then (oldR, oldS)
    else
      let quotient := jsQuot oldR r
      modInverseGo fuel r (oldR - quotient * r) s (oldS - quotient * s)

/-- `RSA.modInverse(a, m)` (RSA.ts lines 686-709); `Except.error` models the
thrown `模逆元不存在` error when the gcd is not 1. -/
def modInverse (a m : ℤ) : Except Unit ℤ :=
  if m = 1 then Except.ok 0
  else
    let a := jsRem (jsRem a m + m) m
    let (oldR, oldS) := modInverseGo (a.natAbs + m.natAbs + 1) a m 1 0
    if oldR ≠ 1 then Except.error ()
    else Except.ok (jsRem (jsRem oldS m + m) m)

end RSA

/- ===================================================================
   DSA module (src/unnamed/part_006, class DSA)
   =================================================================== -/

namespace DSA

/-- `DSA.getBitLength` (part_006 lines 320-323): explicitly 0 for 0,
otherwise `n.toString(2).length`. -/
def getBitLength (n : ℤ) : ℕ := if n = 0 then 0 else jsBitLength n

/-- Bit loop of `DSA.modExp` (part_006 lines 210-218): scan the characters of
`exponent.toString(2)` from the most significant end; note that it multiplies
by the *unreduced* base. -/
def modExpBits (modulus base : ℤ) : List ℕ → ℤ → ℤ
  | [], result => result
  | bit :: rest, result =>
    let result := jsRem (result * result) modulus
    let result := if bit = 1 then jsRem (result * base) modulus else result
    modExpBits modulus base rest result

/-- The unused 16-entry precomputation table of `DSA.modExp`
(part_006 lines 196-204); kept for fidelity, never read by the loop. -/
def modExpPrecomp (base modulus : ℤ) : List ℤ :=
  (List.range 16).drop 1 |>.foldl (fun acc _ =>
    acc ++ [jsRem (acc.getLast! * base) modulus]) [1]

/-- The pure computation performed by `DSA.modExp` on a cache miss. -/
def modExpPure (base exponent modulus : ℤ) : ℤ :=
  if modulus = 1 then 0 else modExpBits modulus base (intToBits exponent) 1

/-- Cache key `"${base}-${exponent}-${modulus}"` of `DSA.modExp`. -/
def modExpKey (b e m : ℤ) : List Char :=
  intToDec b ++ '-' :: intToDec e ++ '-' :: intToDec m

/-- Association-list lookup standing for `Map.get`. -/
def assocFind (k : List Char) : List (List Char × ℤ) → Option ℤ
  | [] => none
  | (k2, v) :: rest => if k2 = k then some v else assocFind k rest

/-- `DSA.modExp(base, exponent, modulus)` with its memo cache
(part_006 lines 186-226); returns the value and the updated cache.  The
cache only grows while it holds fewer than 1000 entries. -/
def modExpCached (cache : List (List Char × ℤ)) (b e m : ℤ) :
    ℤ × List (List Char × ℤ) :=
  if m = 1 then (0, cache)
  else
    match assocFind (modExpKey b e m) cache with
    | some v => (v, cache)
    | none =>
      let r := modExpBits m b (intToBits e) 1
      (r, if cache.length < 1000 then (modExpKey b e m, r) :: cache else cache)

/-- A cache is coherent when every entry that a lookup can hit stores the
value the miss path would have computed. -/
def ExpCacheOK (cache : List (List Char × ℤ)) : Prop :=
  ∀ b e m v, assocFind (modExpKey b e m) cache = some v →
    v = modExpBits m b (intToBits e) 1

/-- `DSA.modInverse(a, m)` (part_006 lines 229-256): like RSA, but it also
throws when the reduced `a` is 0. -/
def modInverse (a m : ℤ) : Except Unit ℤ :=
  let a := jsRem (jsRem a m + m) m
  if a = 0 then Except.error ()
  else
    let (oldR, oldS) := RSA.modInverseGo (a.natAbs + m.natAbs + 1) a m 1 0
    if oldR ≠ 1 then Except.error ()
    else Except.ok (jsRem (jsRem oldS m + m) m)

end DSA

/-- State of the eight 32-bit mixing lanes shared by the fallback hashes. -/
structure Hash8 where
  a0 : ℤ
  a1 : ℤ
  a2 : ℤ
  a3 : ℤ
  a4 : ℤ
  a5 : ℤ
  a6 : ℤ
  a7 : ℤ

/-- Initial lane values (the SHA-256 initialisation constants, as the plain
positive JS numbers they are before any `| 0`). -/
def hash8Init : Hash8 :=
  ⟨0x6a09e667, 0xbb67ae85, 0x3c6ef372, 0xa54ff53a,
    0x510e527f, 0x9b05688c, 0x1f83d9ab, 0x5be0cd19⟩

/-- Serialise one lane to 4 big-endian bytes:
`result[i] = (h >>> (24 - i*8)) & 0xff`. -/
def laneBytes (h : ℤ) : List ℕ :=
  [(jsAnd (jsShrU h 24) 255).toNat, (jsAnd (jsShrU h 16) 255).toNat,
    (jsAnd (jsShrU h 8) 255).toNat, (jsAnd (jsShrU h 0) 255).toNat]

namespace DSA

/-- The `mix` helper of `DSA.simpleSha256` (part_006 lines 538-541):
`((val<<7 | val>>>25) ^ (val<<11 | val>>>21)) + byte | 0`.  All intermediate
values stay well below `2^53`, so JS number arithmetic is exact here. -/
def mix (val byte : ℤ) : ℤ :=
  let rotated := jsXor (jsOr (jsShl val 7) (jsShrU val 25))
    (jsOr (jsShl val 11) (jsShrU val 21))
  toInt32 (rotated + byte)

/-- One data byte of `DSA.simpleSha256` (part_006 lines 543-553): each lane is
mixed with the freshly updated previous lane xored with the byte. -/
def sha256Round (s : Hash8) (byte : ℤ) : Hash8 :=
  let h0 := mix s.a0 byte
  let h1 := mix s.a1 (jsXor h0 byte)
  let h2 := mix s.a2 (jsXor h1 byte)
  let h3 := mix s.a3 (jsXor h2 byte)
  let h4 := mix s.a4 (jsXor h3 byte)
  let h5 := mix s.a5 (jsXor h4 byte)
  let h6 := mix s.a6 (jsXor h5 byte)
  let h7 := mix s.a7 (jsXor h6 byte)
  ⟨h0, h1, h2, h3, h4, h5, h6, h7⟩

/-- `DSA.simpleSha256(data)` (part_006 lines 526-568): the non-browser
fallback for `sha256bytes`; 32 output bytes. -/
def simpleSha256 (data : List ℕ) : List ℕ :=
  let s := data.foldl (fun st b => sha256Round st (b : ℤ)) hash8Init
  laneBytes s.a0 ++ laneBytes s.a1 ++ laneBytes s.a2 ++ laneBytes s.a3 ++
    laneBytes s.a4 ++ laneBytes s.a5 ++ laneBytes s.a6 ++ laneBytes s.a7

/-- Minimal big-endian byte expansion of a natural number (digits base 256). -/
def natBytesBEAux : ℕ → ℕ → List ℕ → List ℕ
  | 0, _, acc => acc
  | _ + 1, 0, acc => acc
  | fuel + 1, n + 1, acc => natBytesBEAux fuel ((n + 1) / 256) ((n + 1) % 256 :: acc)

/-- Minimal big-endian bytes of `n` (empty for 0). -/
def natBytesBE (n : ℕ) : List ℕ := natBytesBEAux (n + 1) n []

/-- `DSA.bigintToBytes(n)` (part_006 lines 480-501): `none` models the throw
on a negative input; 0 gives a single zero byte; otherwise the byte-length is
`ceil(bitlength/8)` and the bytes are filled from the low end, which is the
minimal big-endian expansion. -/
def bigintToBytes (n : ℤ) : Option (List ℕ) :=
  if n < 0 then none
  else if n = 0 then some [0]
  else some (natBytesBE n.toNat)

/-- `DSA.concatBytes` (part_006 lines 470-475). -/
def concatBytes (a b : List ℕ) : List ℕ := a ++ b

/-- The `for (i = 0; i < dst.length && i < src.length; i++) dst[i] = src[i]`
copy used to write hash outputs into the 32-byte `k`/`v` buffers. -/
def copyInto (dst src : List ℕ) : List ℕ :=
  (List.range dst.length).map fun i =>
    if i < src.length then src.getD i 0 else dst.getD i 0

/-- Candidate-drawing loop of `DSA.generateDeterministicK` (part_006 lines
410-464).  `H` is `sha256bytes`; `used` is the `usedKValues` set (decimal
strings).  A candidate already in the set is rejected and the state is
reseeded; the accepted `k` is added to the set.  `none` is fuel exhaustion
(the source would keep looping). -/
def genKLoop (H : List ℕ → List ℕ) (q : ℤ) :
    ℕ → List ℕ → List ℕ → List ℕ → List (List Char) →
    Option (ℤ × List (List Char))
  | 0, _, _, _, _ => none
  | fuel + 1, k, v, t, used =>
    let v1 := copyInto v (H (concatBytes k v))
    let t1 := t ++ v1
    if 32 ≤ t1.length then
      let kBig := bytesToIntBE (t1.take 32)
      let kBig := jsRem kBig (q - 1) + 1
      let kStr := intToDec kBig
      if kStr ∈ used then
        let data3 := v1 ++ [0]
        let k1 := copyInto k (H (concatBytes k data3))
        let v2 := copyInto v1 (H (concatBytes k1 v1))
        genKLoop H q fuel k1 v2 [] used
      else some (kBig, kStr :: used)
    else genKLoop H q fuel k v1 t1 used

/-- `DSA.generateDeterministicK(privateKey, messageHash)` (part_006 lines
360-465), with `sha256bytes` abstracted as `H` (WebCrypto SHA-256 in a
browser, `simpleSha256` otherwise) and the instance state (`this.q`,
`this.usedKValues`) passed explicitly.  Returns the derived `k` and the
updated used-nonce set. -/
def generateDeterministicK (H : List ℕ → List ℕ) (q : ℤ) (used : List (List Char))
    (privateKey messageHash : ℤ) (fuel : ℕ) : Option (ℤ × List (List Char)) :=
  match bigintToBytes privateKey, bigintToBytes messageHash with
  | some xBytes, some mBytes =>
    let v := List.replicate 32 1
    let k := List.replicate 32 0
    let data1 := v ++ [0] ++ xBytes ++ mBytes
    let k1 := copyInto k (H data1)
    let v1 := copyInto v (H (concatBytes k1 v))
    let data2 := v1 ++ [1] ++ xBytes ++ mBytes
    let k2 := copyInto k1 (H data2)
    let v2 := copyInto v1 (H (concatBytes k2 v1))
    genKLoop H q fuel k2 v2 [] used
  | _, _ => none

/-- `DSA.hashSHA256` digest reduction (part_006 lines 263-296), applied to the
32 bytes of the full message digest (`getFullSHA256` is the hashing adapter).
`none` models the catch branch (an out-of-range byte read throws and falls
back to `backupHash`; unreachable for 32-byte digests). -/
def hashSHA256Reduce (q : ℤ) (fullHashBytes : List ℕ) : Option ℤ :=
  let qBitLength := getBitLength q
  let hashBitsToUse := min 256 qBitLength
  let bytesToUse := (hashBitsToUse + 7) / 8
  if bytesToUse ≤ fullHashBytes.length then
    let hashValue := bytesToIntBE (fullHashBytes.take bytesToUse)
    let hashValue :=
      if 256 > qBitLength then Int.fdiv hashValue (2 ^ (256 - qBitLength))
      else hashValue
    some (jsRem hashValue q)
  else none

/-- `DSA.getRandomBigInt(min, max)` (part_006 lines 739-769), with the random
bytes abstracted into the non-negative integer they fold to (`rand`). -/
def getRandomBigInt (rand : ℕ) (lo hi : ℤ) : ℤ :=
  lo + jsRem (rand : ℤ) (hi - lo + 1)

/-- `DSA.getRandomOddBigInt(bits)` (part_006 lines 69-83): a random value of
the requested bit length with the top bit set (`minVal = 2^(bits-1)`,
`maxVal = 2^bits - 1`), made odd. -/
def getRandomOddBigInt (rand : ℕ) (bits : ℕ) : ℤ :=
  if jsRem (getRandomBigInt rand (2 ^ (bits - 1)) (2 ^ bits - 1)) 2 = 0 then
    getRandomBigInt rand (2 ^ (bits - 1)) (2 ^ bits - 1) + 1
  else getRandomBigInt rand (2 ^ (bits - 1)) (2 ^ bits - 1)

end DSA

/-- Modelled from the spec: the FIPS 186-4 left-truncation that section 4.4
describes — "taking the top `min(hashBits, bitlength(q))` bits of the hash
and right-shifting as needed", to be compared with the reduction the code
performs. -/
def specFipsLeftTrunc (q : ℤ) (fullHashBytes : List ℕ) : ℤ :=
  let hashBits := 8 * fullHashBytes.length
  let keep := min hashBits (DSA.getBitLength q)
  Int.fdiv (bytesToIntBE fullHashBytes) (2 ^ (hashBits - keep))

/- ===================================================================
   ECDSA module (src/algorithms/ECDSA.ts)
   =================================================================== -/

namespace ECDSA

/-- secp256k1 field prime (ECDSA.ts line 6). -/
def p : ℤ := 0xFFFFFFFFFFFFFFFFFFFFFFFFFFFFFFFFFFFFFFFFFFFFFFFFFFFFFFFEFFFFFC2F

/-- Curve coefficient `a = 0` (ECDSA.ts line 7). -/
def aCoeff : ℤ := 0

/-- Curve coefficient `b = 7` (ECDSA.ts line 8). -/
def bCoeff : ℤ := 7

/-- Base point x coordinate (ECDSA.ts line 9). -/
def Gx : ℤ := 0x79BE667EF9DCBBAC55A06295CE870B07029BFCDB2DCE28D959F2815B16F81798

/-- Base point y coordinate (ECDSA.ts line 10). -/
def Gy : ℤ := 0x483ADA7726A3C4655DA4FBFC0E1108A8FD17B448A68554199C47D08FFB10D4B8

/-- Curve order (ECDSA.ts line 11). -/
def n : ℤ := 0xFFFFFFFFFFFFFFFFFFFFFFFFFFFFFFFEBAAEDCE6AF48A03BBFD25E8CD0364141

/-- Affine point (`interface Point`). -/
structure Point where
  x : ℤ
  y : ℤ
deriving DecidableEq

/-- Jacobian point (`interface JacobianPoint`). -/
structure JacobianPoint where
  x : ℤ
  y : ℤ
  z : ℤ
deriving DecidableEq

instance : Inhabited JacobianPoint := ⟨⟨0, 1, 0⟩⟩

/-- The `modInverseCache` of the ECDSA instance: keys are the strings
`a.toString() + "_" + m.toString()`. -/
def invKey (av m : ℤ) : List Char := intToDec av ++ '_' :: intToDec m

/-- `ECDSA.modInverse(a, m)` (ECDSA.ts lines 580-607): byte-for-byte the same
extended-Euclid routine as `DSA.modInverse` (normalise, throw on zero, throw
when the gcd is not 1). -/
def modInverse (av m : ℤ) : Except Unit ℤ := DSA.modInverse av m

/-- `ECDSA.getCachedModInverse(a, m)` (ECDSA.ts lines 559-575): consult the
cache, otherwise compute and store.  The cache is unchanged when the
computation throws. -/
def getCachedModInverse (cache : List (List Char × ℤ)) (av m : ℤ) :
    Except Unit (ℤ × List (List Char × ℤ)) :=
  match DSA.assocFind (invKey av m) cache with
  | some v => Except.ok (v, cache)
  | none =>
    match modInverse av m with
    | Except.ok r => Except.ok (r, (invKey av m, r) :: cache)
    | Except.error e => Except.error e

/-- An `modInverseCache` is coherent when every entry a lookup can hit stores
the successfully computed inverse for its key. -/
def InvCacheOK (cache : List (List Char × ℤ)) : Prop :=
  ∀ av m v, DSA.assocFind (invKey av m) cache = some v →
    modInverse av m = Except.ok v

/-- `ECDSA.jacobianDouble(P)` (ECDSA.ts lines 332-357). -/
def jacobianDouble (P : JacobianPoint) : JacobianPoint :=
  if P.z = 0 then P
  else if P.y = 0 then ⟨0, 1, 0⟩
  else
    let xx := jsRem (P.x * P.x) p
    let yy := jsRem (P.y * P.y) p
    let yyyy := jsRem (yy * yy) p
    let zz := jsRem (P.z * P.z) p
    let s := jsRem (4 * P.x * yy) p
    let m := jsRem (3 * xx + aCoeff * zz * zz) p
    let x3 := jsRem (m * m - 2 * s) p
    let y3 := jsRem (m * (s - x3) - 8 * yyyy) p
    let z3 := jsRem (2 * P.y * P.z) p
    ⟨if x3 < 0 then x3 + p else x3, if y3 < 0 then y3 + p else y3, z3⟩

/-- `ECDSA.jacobianAdd(P, Q)` (ECDSA.ts lines 290-327). -/
def jacobianAdd (P Q : JacobianPoint) : JacobianPoint :=
  if P.z = 0 then Q
  else if Q.z = 0 then P
  else
    let z1z1 := jsRem (P.z * P.z) p
    let z2z2 := jsRem (Q.z * Q.z) p
    let u1 := jsRem (P.x * z2z2) p
    let u2 := jsRem (Q.x * z1z1) p
    let s1 := jsRem (P.y * Q.z * z2z2) p
    let s2 := jsRem (Q.y * P.z * z1z1) p
    let h0 := jsRem (u2 - u1) p
    let h := if h0 < 0 then h0 + p else h0
    if h = 0 then
      if jsRem (s1 - s2) p = 0 then jacobianDouble P else ⟨0, 1, 0⟩
    else
      let h2 := jsRem (h * h) p
      let h3 := jsRem (h2 * h) p
      let r0 := jsRem (s2 - s1) p
      let r := if r0 < 0 then r0 + p else r0
      let x3 := jsRem (r * r - h3 - 2 * u1 * h2) p
      let y3 := jsRem (r * (u1 * h2 - x3) - s1 * h3) p
      let z3 := jsRem (P.z * Q.z * h) p
      ⟨if x3 < 0 then x3 + p else x3, if y3 < 0 then y3 + p else y3, z3⟩

/-- `ECDSA.affineToJacobian(P)` (ECDSA.ts lines 260-265). -/
def affineToJacobian (P : Point) : JacobianPoint :=
  if P.x = 0 ∧ P.y = 0 then ⟨0, 1, 0⟩ else ⟨P.x, P.y, 1⟩

/-- `ECDSA.jacobianToAffine(P)` (ECDSA.ts lines 270-285): the point at
infinity is rendered `(0, 0)`; otherwise one cached modular inverse. -/
def jacobianToAffine (cache : List (List Char × ℤ)) (P : JacobianPoint) :
    Except Unit (Point × List (List Char × ℤ)) :=
  if P.z = 0 then Except.ok (⟨0, 0⟩, cache)
  else
    match getCachedModInverse cache P.z p with
    | Except.error e => Except.error e
    | Except.ok (zInv, c1) =>
      let zInv2 := jsRem (zInv * zInv) p
      let zInv3 := jsRem (zInv2 * zInv) p
      Except.ok (⟨jsRem (P.x * zInv2) p, jsRem (P.y * zInv3) p⟩, c1)

/-- Multiples of the Jacobian base point used by `precomputePoints`
(ECDSA.ts lines 174-192): entry `j` of the table is `j` successive
`jacobianAdd`s of `G` starting from the point at infinity. -/
def gMultiple : ℕ → JacobianPoint
  | 0 => ⟨0, 1, 0⟩
  | j + 1 => jacobianAdd (gMultiple j) (affineToJacobian ⟨Gx, Gy⟩)

/-- `this.precomputedPoints` after the constructor ran: 16 entries
`[O, G, 2G, ..., 15G]` (each built with `jacobianAdd` on the previous). -/
def precomputedPoints : List JacobianPoint := (List.range 16).map gMultiple

/-- `d` successive `jacobianDouble`s. -/
def doubleTimes : ℕ → JacobianPoint → JacobianPoint
  | 0, P => P
  | d + 1, P => doubleTimes d (jacobianDouble P)

/-- The windowed base-point loop of `ECDSA.pointMultiplyOptimized`
(ECDSA.ts lines 211-237).  Each outer iteration first performs up to 4
`jacobianDouble`s — decrementing the bit index `i` each time, so those bit
positions are consumed without being read — and then reads up to the next 4
bits as the window value and adds the corresponding precomputed multiple. -/
def windowLoop : ℕ → List ℕ → JacobianPoint → JacobianPoint
  | 0, _, result => result
  | fuel + 1, bits, result =>
    if bits.isEmpty then result
    else
      let d := min 4 bits.length
      let result := doubleTimes d result
      let rest := bits.drop d
      if rest.isEmpty then result
      else
        let t := min 4 rest.length
        let windowVal := bitsVal (rest.take t)
        let result :=
          if 0 < windowVal then
            jacobianAdd result (precomputedPoints.getD windowVal ⟨0, 1, 0⟩)
          else result
        windowLoop fuel (rest.drop t) result

/-- The generic MSB-first double-and-add loop of `pointMultiplyOptimized`
for non-base points (ECDSA.ts lines 240-251). -/
def doubleAddLoop (PJ : JacobianPoint) : List ℕ → JacobianPoint → JacobianPoint
  | [], result => result
  | bit :: rest, result =>
    let result := jacobianDouble result
    let result := if bit = 1 then jacobianAdd result PJ else result
    doubleAddLoop PJ rest result

/-- `ECDSA.pointMultiplyOptimized(P, k)` (ECDSA.ts lines 198-255): shortcuts
for `k = 0` and `k = 1`, the windowed table path when `P` is the base point,
plain double-and-add otherwise, and a final cached conversion to affine. -/
def pointMultiplyOptimized (cache : List (List Char × ℤ)) (P : Point) (k : ℤ) :
    Except Unit (Point × List (List Char × ℤ)) :=
  if k = 0 then Except.ok (⟨0, 0⟩, cache)
  else if k = 1 then Except.ok (P, cache)
  else
    let kBits := intToBits k
    let result :=
      if P.x = Gx ∧ P.y = Gy then windowLoop (kBits.length + 1) kBits ⟨0, 1, 0⟩
      else doubleAddLoop (affineToJacobian P) kBits ⟨0, 1, 0⟩
    jacobianToAffine cache result

end ECDSA

namespace ECDSA

/-- `ECDSA.bigintToUint8Array(value)` (ECDSA.ts lines 680-701): minimal
big-endian bytes; `[0]` for zero; a negative value yields the empty array
(the byte-counting loop never runs). -/
def bigintToUint8Array (value : ℤ) : List ℕ :=
  if value = 0 then [0]
  else if value < 0 then []
  else DSA.natBytesBE value.toNat

/-- `ECDSA.uint8ArrayToBigInt(bytes)` (ECDSA.ts lines 706-715). -/
def uint8ArrayToBigInt (bytes : List ℕ) : ℤ := bytesToIntBE bytes

/-- `ECDSA.hashToInt(hash, max)` (ECDSA.ts lines 453-470): strip non-hex
characters, truncate to the bit length of `max`, reduce mod `max`.  The error
is the `BigInt` parse throwing when no hex characters remain. -/
def hashToInt (hash : List Char) (mx : ℤ) : Except Unit ℤ :=
  let cleanHash := hash.filter (fun c => (hexDigitVal c).isSome)
  let maxBits := jsBitLength mx
  if cleanHash.length * 4 ≤ maxBits then
    match jsParseHex cleanHash with
    | some v => Except.ok (jsRem v mx)
    | none => Except.error ()
  else
    match jsParseHex (cleanHash.take (maxBits / 4 + (if maxBits % 4 ≠ 0 then 1 else 0))) with
    | some v => Except.ok (jsRem v mx)
    | none => Except.error ()

/-- Candidate loop of `ECDSA.generateDeterministicK` (ECDSA.ts lines 519-534),
with the WebCrypto HMAC-SHA-256 primitive abstracted as `hmac key data`.
State: the current HMAC key bytes and `V`. -/
def genKLoop (hmac : List ℕ → List ℕ → List ℕ) :
    ℕ → List ℕ → List ℕ → Option ℤ
  | 0, _, _ => none
  | fuel + 1, kKey, v =>
    let v1 := hmac kKey v
    let kCand := jsRem (uint8ArrayToBigInt v1) n
    if 0 < kCand ∧ kCand < n then some kCand
    else
      let k1 := hmac kKey (v1 ++ [0])
      let v2 := hmac k1 v1
      genKLoop hmac fuel k1 v2

/-- `ECDSA.generateDeterministicK(privateKey, messageHash)` (ECDSA.ts lines
476-553), browser branch, RFC-6979-style: a pure function of the private key
and the reduced message hash (no instance state is read or written). -/
def generateDeterministicK (hmac : List ℕ → List ℕ → List ℕ)
    (privateKey messageHash : ℤ) (fuel : ℕ) : Option ℤ :=
  let dBytes := bigintToUint8Array privateKey
  let hBytes := bigintToUint8Array messageHash
  let v := List.replicate 32 1
  let k := List.replicate 32 0
  let k1 := hmac k (v ++ [0] ++ dBytes ++ hBytes)
  let v1 := hmac k1 v
  let k2 := hmac k1 (v1 ++ [1] ++ dBytes ++ hBytes)
  let v2 := hmac k2 v1
  genKLoop hmac fuel k2 v2

/-- `ECDSA.derEncode(r, s)` (ECDSA.ts lines 720-761): two DER INTEGERs with
the leading-zero rule wrapped in a SEQUENCE, returned as lowercase hex.
Length bytes are stored into `Uint8Array` slots, hence the `% 256`. -/
def derEncode (r s : ℤ) : List Char :=
  let rBytes := bigintToUint8Array r
  let rBytes := if 0 < Nat.land (rBytes.getD 0 0) 128 then 0 :: rBytes else rBytes
  let sBytes := bigintToUint8Array s
  let sBytes := if 0 < Nat.land (sBytes.getD 0 0) 128 then 0 :: sBytes else sBytes
  let rDer := 2 :: rBytes.length % 256 :: rBytes
  let sDer := 2 :: sBytes.length % 256 :: sBytes
  let sigDer := 48 :: (rDer.length + sDer.length) % 256 :: (rDer ++ sDer)
  bytesToHex sigDer

/-- The accumulation loop `r = (r << 8n) | BigInt(derBytes[i])` over indices
`start ≤ i < stop`; `none` models the throw on an out-of-range read
(`BigInt(undefined)`). -/
def readBytesBE (bytes : List ℕ) (start stop : ℕ) : Option ℤ :=
  if stop ≤ bytes.length ∨ stop ≤ start then
    some ((List.range' start (stop - start)).foldl
      (fun acc i => acc * 256 + (bytes.getD i 0 : ℤ)) 0)
  else none

/-- `ECDSA.derDecode(derHex)` (ECDSA.ts lines 766-822).  Errors: odd hex
length (fractional `Uint8Array` size throws), wrong SEQUENCE/INTEGER tags,
and out-of-range value reads.  The skip of one leading zero byte requires the
byte after it to have its high bit set; the zero test `derBytes[i] === 0x00`
is false on an out-of-range read. -/
def derDecode (derHex : List Char) : Except Unit (ℤ × ℤ) :=
  if derHex.length % 2 ≠ 0 then Except.error ()
  else
    let derBytes := hexPairsToBytes derHex
    if derBytes.getD 0 0 ≠ 48 then Except.error ()
    else if derBytes.getD 2 0 ≠ 2 then Except.error ()
    else
      let rLength := derBytes.getD 3 0
      let rStart :=
        if derBytes.get? 4 = some 0 ∧ 0 < Nat.land (derBytes.getD 5 0) 128 then 5
        else 4
      match readBytesBE derBytes rStart (4 + rLength) with
      | none => Except.error ()
      | some r =>
        let index := 4 + rLength
        if derBytes.getD index 0 ≠ 2 then Except.error ()
        else
          let sLength := derBytes.getD (index + 1) 0
          let sStart :=
            if derBytes.get? (index + 2) = some 0 ∧
                0 < Nat.land (derBytes.getD (index + 3) 0) 128 then index + 3
            else index + 2
          match readBytesBE derBytes sStart (index + 2 + sLength) with
          | none => Except.error ()
          | some s => Except.ok (r, s)

/-- `ECDSA.computeWindowNAF(k, w)` (ECDSA.ts lines 894-924): window-NAF
digits, least significant first. -/
def computeWindowNAF (w : ℕ) : ℕ → ℤ → List ℤ
  | 0, _ => []
  | fuel + 1, k =>
    if 0 < k then
      if jsRem k 2 ≠ 0 then
        let remainder := jsRem k (2 ^ (w + 1))
        let digit := if remainder > 2 ^ w then remainder - 2 ^ (w + 1) else remainder
        digit :: computeWindowNAF w fuel (Int.fdiv (k - digit) 2)
      else 0 :: computeWindowNAF w fuel (Int.fdiv k 2)
    else []

/-- `ECDSA.precomputePointMultiples(Q, w)` (ECDSA.ts lines 929-946) for
`w = 5`: the resulting 8-entry array.  (The loop overwrites slot 1 at
`i = 3`, so the final array is `[O, 2Q, 4Q, ..., 14Q]` — entry `j ≥ 1` is
`j` successive `jacobianAdd`s of `2Q` starting from `O`.) -/
def qMultiple (Q2 : JacobianPoint) : ℕ → JacobianPoint
  | 0 => ⟨0, 1, 0⟩
  | j + 1 => jacobianAdd (qMultiple Q2 j) Q2

/-- The final contents of the temporary table built by
`precomputePointMultiples(Q, 5)`. -/
def precomputePointMultiples (Q : JacobianPoint) : List JacobianPoint :=
  (List.range 8).map (qMultiple (jacobianDouble Q))

/-- One signed-table addition step of `fastShamirTrick` (ECDSA.ts lines
851-883): index the table at `|digit| >> 1`, negate the point for a negative
digit; an out-of-range table access throws. -/
def nafTableAdd (table : List JacobianPoint) (digit : ℤ)
    (result : JacobianPoint) : Except Unit JacobianPoint :=
  match table.get? (digit.natAbs / 2) with
  | none => Except.error ()
  | some pt =>
    if 0 < digit then Except.ok (jacobianAdd result pt)
    else Except.ok (jacobianAdd result ⟨pt.x, jsRem (p - pt.y) p, pt.z⟩)

/-- The MSB-to-LSB loop of `fastShamirTrick`: the counter argument is
`i + 1` where `i` is the current index. -/
def shamirLoop (w1 w2 : List ℤ) (pQ : List JacobianPoint) :
    ℕ → JacobianPoint → Except Unit JacobianPoint
  | 0, result => Except.ok result
  | i + 1, result =>
    let result := jacobianDouble result
    let step1 : Except Unit JacobianPoint :=
      if i < w1.length ∧ w1.getD i 0 ≠ 0 then
        nafTableAdd precomputedPoints (w1.getD i 0) result
      else Except.ok result
    match step1 with
    | Except.error e => Except.error e
    | Except.ok result =>
      let step2 : Except Unit JacobianPoint :=
        if i < w2.length ∧ w2.getD i 0 ≠ 0 then
          nafTableAdd pQ (w2.getD i 0) result
        else Except.ok result
      match step2 with
      | Except.error e => Except.error e
      | Except.ok result => shamirLoop w1 w2 pQ i result

/-- `ECDSA.fastShamirTrick(u1, u2, Q)` (ECDSA.ts lines 828-888). -/
def fastShamirTrick (cache : List (List Char × ℤ)) (u1 u2 : ℤ) (Q : Point) :
    Except Unit (Point × List (List Char × ℤ)) :=
  let QJ := affineToJacobian Q
  let w1 := computeWindowNAF 5 (u1.natAbs + 8) u1
  let w2 := computeWindowNAF 5 (u2.natAbs + 8) u2
  let pQ := precomputePointMultiples QJ
  match shamirLoop w1 w2 pQ (max w1.length w2.length) ⟨0, 1, 0⟩ with
  | Except.error e => Except.error e
  | Except.ok result => jacobianToAffine cache result

end ECDSA

/-- JS truthiness of a possibly-absent string field: `undefined` and the
empty string are falsy. -/
def jsTruthyStr : Option (List Char) → Bool
  | some s => !s.isEmpty
  | none => false

namespace ECDSA

/-- The `SignatureResult` record `ECDSA.sign` produces. -/
structure SigResult where
  signature : List Char
  r : List Char
  s : List Char
  messageHash : List Char
deriving DecidableEq

/-- Outcome of the body of `ECDSA.sign` before its `catch`: success, a thrown
error (with the instance cache as mutated so far), or a non-terminating
retry recursion (fuel exhaustion; not observable in the source). -/
inductive SignOutcome where
  | done (res : SigResult) (cache : List (List Char × ℤ))
  | thrown (cache : List (List Char × ℤ))
  | spin
deriving DecidableEq

/-- Forget the cache component of a sign outcome. -/
def SignOutcome.val : SignOutcome → Option (Option SigResult)
  | .done res _ => some (some res)
  | .thrown _ => some none
  | .spin => none

/-- Body of `ECDSA.sign(message, keys)` (ECDSA.ts lines 64-106) with the
`r = 0` / `s = 0` retry recursion fuelled; `hash`/`hmac` are the host digest
and HMAC primitives, `dHex` is `keys.privateKey.d`, and the mod-inverse
cache is the instance state. -/
def signAux (hash : List Char → List Char) (hmac : List ℕ → List ℕ → List ℕ)
    (message dHex : List Char) (kFuel : ℕ) :
    ℕ → List (List Char × ℤ) → SignOutcome
  | 0, _ => SignOutcome.spin
  | fuel + 1, cache =>
    match jsParseHex dHex with
    | none => SignOutcome.thrown cache
    | some d =>
      let messageHash := hash message
      match hashToInt messageHash n with
      | Except.error _ => SignOutcome.thrown cache
      | Except.ok e =>
        match generateDeterministicK hmac d e kFuel with
        | none => SignOutcome.spin
        | some k =>
          match pointMultiplyOptimized cache ⟨Gx, Gy⟩ k with
          | Except.error _ => SignOutcome.thrown cache
          | Except.ok (kG, c1) =>
            let r := jsRem kG.x n
            if r = 0 then signAux hash hmac message dHex kFuel fuel c1
            else
              match getCachedModInverse c1 k n with
              | Except.error _ => SignOutcome.thrown c1
              | Except.ok (kInv, c2) =>
                let s := jsRem (kInv * jsRem (e + r * d) n) n
                if s = 0 then signAux hash hmac message dHex kFuel fuel c2
                else
                  SignOutcome.done
                    ⟨derEncode r s, padStart (intToHex r) 64 '0',
                      padStart (intToHex s) 64 '0', messageHash⟩ c2

/-- `ECDSA.sign` including its `catch` (ECDSA.ts lines 107-115): any thrown
error is converted into the empty-DER / all-zero-`r`,`s` record. -/
def sign (hash : List Char → List Char) (hmac : List ℕ → List ℕ → List ℕ)
    (message dHex : List Char) (kFuel fuel : ℕ)
    (cache : List (List Char × ℤ)) : Option (SigResult × List (List Char × ℤ)) :=
  match signAux hash hmac message dHex kFuel fuel cache with
  | SignOutcome.done res c => some (res, c)
  | SignOutcome.thrown c =>
    some (⟨[], List.replicate 64 '0', List.replicate 64 '0', []⟩, c)
  | SignOutcome.spin => none

/-- The signature argument of `ECDSA.verify`: possibly-absent `r`, `s` and
DER `signature` string fields. -/
structure SigObj where
  r : Option (List Char)
  s : Option (List Char)
  signature : Option (List Char)

/-- `ECDSA.verify(message, signature, keys)` (ECDSA.ts lines 121-169).
Fields `pubX`, `pubY` are `keys.publicKey.x/y`; the result pairs the boolean
with the instance cache (every caught error yields `false`). -/
def verify (hash : List Char → List Char) (cache : List (List Char × ℤ))
    (message : List Char) (sig : SigObj) (pubX pubY : List Char) :
    Bool × List (List Char × ℤ) :=
  match jsParseHex pubX with
  | none => (false, cache)
  | some Qx =>
    match jsParseHex pubY with
    | none => (false, cache)
    | some Qy =>
      match
        (if jsTruthyStr sig.r ∧ jsTruthyStr sig.s then
          match jsParseHex (sig.r.getD []), jsParseHex (sig.s.getD []) with
          | some rv, some sv => Except.ok (some (rv, sv))
          | _, _ => Except.error ()
        else if jsTruthyStr sig.signature then
          match derDecode (sig.signature.getD []) with
          | Except.ok rs => Except.ok (some rs)
          | Except.error _ => Except.error ()
        else Except.ok none) with
      | Except.error _ => (false, cache)
      | Except.ok none => (false, cache)
      | Except.ok (some (r, s)) =>
        if r ≤ 0 ∨ r ≥ n ∨ s ≤ 0 ∨ s ≥ n then (false, cache)
        else
          match getCachedModInverse cache s n with
          | Except.error _ => (false, cache)
          | Except.ok (w, c1) =>
            match hashToInt (hash message) n with
            | Except.error _ => (false, c1)
            | Except.ok e =>
              let u1 := jsRem (e * w) n
              let u2 := jsRem (r * w) n
              match fastShamirTrick c1 u1 u2 ⟨Qx, Qy⟩ with
              | Except.error _ => (false, c1)
              | Except.ok (P, c2) => (decide (jsRem P.x n = r), c2)

/-- `ECDSA.generateKeys()` (ECDSA.ts lines 40-59) with the random private key
`d` passed explicitly: the public point is `pointMultiplyOptimized(G, d)`,
hex-encoded to 64 characters. -/
def generateKeys (cache : List (List Char × ℤ)) (d : ℤ) :
    Except Unit ((List Char × List Char) × List Char × List (List Char × ℤ)) :=
  match pointMultiplyOptimized cache ⟨Gx, Gy⟩ d with
  | Except.error e => Except.error e
  | Except.ok (Q, c1) =>
    Except.ok ((padStart (intToHex Q.x) 64 '0', padStart (intToHex Q.y) 64 '0'),
      padStart (intToHex d) 64 '0', c1)

/-- Modelled from the spec (section 4.1): extended-Euclid modular inverse,
used only inside the independent recomputation of `d·G`. -/
def specInvMod (x m : ℤ) : ℤ :=
  ((RSA.modInverseGo ((x % m).natAbs + m.natAbs + 1) (x % m) m 1 0).2 % m + m) % m

/-- Modelled from the spec (section 4.5): textbook affine point addition on
secp256k1 (`a = 0`), with the point at infinity represented as `none`. -/
def specECAdd : Option Point → Option Point → Option Point
  | none, Q => Q
  | some P, none => some P
  | some P, some Q =>
    if (P.x - Q.x) % p = 0 then
      if (P.y + Q.y) % p = 0 then none
      else
        let l := 3 * P.x * P.x * specInvMod (2 * P.y) p % p
        let x3 := (l * l - P.x - Q.x) % p
        some ⟨x3, (l * (P.x - x3) - P.y) % p⟩
    else
      let l := (Q.y - P.y) * specInvMod (Q.x - P.x) p % p
      let x3 := (l * l - P.x - Q.x) % p
      some ⟨x3, (l * (P.x - x3) - P.y) % p⟩

/-- Modelled from the spec (sections 4.5 and 8): binary double-and-add scalar
multiplication `k·P`, the recomputation of `d·G` independent of
`generateKeys`. -/
def specECMul (k : ℕ) (P : Option Point) : Option Point :=
  (natToBits k).foldl (fun acc bit =>
    let acc2 := specECAdd acc acc
    if bit = 1 then specECAdd acc2 P else acc2) none

end ECDSA

namespace RSA

/-- The fixed RSA public exponent `e = 65537` (RSA.ts line 5), used directly
by `verify`. -/
def pubE : ℤ := 65537

/-- `HASH_LENGTH = 32` (RSA.ts line 13). -/
def HASH_LENGTH : ℕ := 32

/-- The lane update `((h << 5) - h) + c | 0` shared by `RSA.simpleHash` and
`RSA.simpleHashBytes`.  The subtraction and addition happen in JS number
arithmetic, exact at these magnitudes; the trailing `| 0` wraps to int32. -/
def hashStep (h c : ℤ) : ℤ := toInt32 (jsShl h 5 - h + c)

/-- `RSA.simpleHash(message)` (RSA.ts lines 735-762): the non-browser
fallback of `sha256`; eight independent lanes, each formatted with
`toString(16).padStart(8, '0')`. -/
def simpleHash (message : List Char) : List Char :=
  ([hash8Init.a0, hash8Init.a1, hash8Init.a2, hash8Init.a3,
    hash8Init.a4, hash8Init.a5, hash8Init.a6, hash8Init.a7].map
    (fun h => message.foldl (fun hh c => hashStep hh (c.toNat : ℤ)) h)).flatMap
    (fun x => padStart (intToHex x) 8 '0')

/-- `RSA.simpleHashBytes(data)` (RSA.ts lines 769-807): same lanes over a
byte array, serialised to 32 bytes. -/
def simpleHashBytes (data : List ℕ) : List ℕ :=
  ([hash8Init.a0, hash8Init.a1, hash8Init.a2, hash8Init.a3,
    hash8Init.a4, hash8Init.a5, hash8Init.a6, hash8Init.a7].map
    (fun h => data.foldl (fun hh b => hashStep hh (b : ℤ)) h)).flatMap laneBytes

/-- The 4-byte big-endian counter block appended to the MGF1 seed. -/
def counterBytes (c : ℕ) : List ℕ :=
  [c / 2 ^ 24 % 256, c / 2 ^ 16 % 256, c / 2 ^ 8 % 256, c % 256]

/-- Loop of `RSA.mgf1` (RSA.ts lines 515-529); `remaining` is
`maskLen - pos`. -/
def mgf1Go (seed : List ℕ) : ℕ → ℕ → ℕ → List ℕ
  | 0, _, _ => []
  | fuel + 1, counter, remaining =>
    if remaining = 0 then []
    else
      let hsh := simpleHashBytes (seed ++ counterBytes counter)
      let len := min 32 remaining
      hsh.take len ++ mgf1Go seed fuel (counter + 1) (remaining - len)

/-- `RSA.mgf1(seed, maskLen)` (RSA.ts lines 506-532): always uses
`simpleHashBytes` (no environment branch). -/
def mgf1 (seed : List ℕ) (maskLen : ℕ) : List ℕ := mgf1Go seed (maskLen + 1) 0 maskLen

/-- `RSA.constantTimeCompare(a, b)` (RSA.ts lines 914-925): length check,
then an or-accumulated xor over all bytes. -/
def constantTimeCompare (a b : List ℕ) : Bool :=
  if a.length ≠ b.length then false
  else
    decide ((List.range a.length).foldl
      (fun acc i => Nat.lor acc (Nat.xor (a.getD i 0) (b.getD i 0))) 0 = 0)

/-- Separator scan of `emsa_pss_verify` (RSA.ts lines 418-439) over the index
list: find `0x01`, tolerate nonzero padding bytes (recorded in the flag), and
accept a nonzero byte as the separator when at least `HASH_LENGTH` bytes
remain. -/
def findSepGo (db : List ℕ) (dbLen : ℕ) : Bool → List ℕ → Option ℕ × Bool
  | pe, [] => (none, pe)
  | pe, i :: rest =>
    let byte := db.getD i 0
    if byte = 1 then (some (i + 1), pe)
    else if byte ≠ 0 then
      if 32 ≤ dbLen - i then (some (i + 1), true)
      else findSepGo db dbLen true rest
    else findSepGo db dbLen pe rest

/-- `RSA.emsa_pss_verify(messageHash, encMessage, emBits, knownSalt)`
(RSA.ts lines 351-498).  The function is total (its own `catch` is
unreachable: no step below can throw), so the caller-side catch branch of
`verify` is dead code. -/
def emsa_pss_verify (hash : List Char → List Char)
    (messageHash encMessage : List Char) (emBits : ℕ)
    (knownSalt : Option (List ℕ)) : Bool :=
  let mHash := hexToBytes messageHash
  let em := hexToBytes encMessage
  let emLen := (emBits + 7) / 8
  if emLen < mHash.length + 1 then false
  else if em.getD (em.length - 1) 0 ≠ 188 then false
  else
    let hLen := mHash.length
    if em.length < hLen + 1 then false
    else
      let dbLen := em.length - hLen - 1
      let maskedDB := em.take dbLen
      let h := (em.drop dbLen).take hLen
      let bitsToZero := 8 * emLen - emBits
      if 0 < bitsToZero ∧ 0 < maskedDB.length ∧
          jsAnd (maskedDB.getD 0 0 : ℤ) (jsNot (jsShrS 255 bitsToZero)) ≠ 0 then
        false
      else
        let dbMask := mgf1 h dbLen
        let db := (List.range dbLen).map
          (fun i => Nat.xor (maskedDB.getD i 0) (dbMask.getD i 0))
        let db :=
          if 0 < bitsToZero ∧ 0 < db.length then
            Nat.land (db.getD 0 0) (jsShrS 255 bitsToZero).toNat :: db.tail
          else db
        let startIndex := if 0 < bitsToZero then 1 else 0
        let scan := findSepGo db dbLen false (List.range' startIndex (dbLen - startIndex))
        let saltOffset : Option ℕ :=
          match scan.1 with
          | some so => some so
          | none =>
            if db.all (fun b => b = 0) then some dbLen
            else if 32 < dbLen then some (dbLen - 32)
            else none
        match saltOffset with
        | none => false
        | some so =>
          let salt := if dbLen ≤ so then [] else db.drop so
          let salt :=
            match knownSalt with
            | some ks => if 0 < ks.length then ks else salt
            | none => salt
          let mPrime := List.replicate 8 0 ++ mHash ++ salt
          let hPrime := hexToBytes (hash (bytesToHex mPrime))
          constantTimeCompare h hPrime

/-- The signature argument of `RSA.verify`: the display fields the sign step
returns, all optional (a tampering caller may supply any subset). -/
structure SigObj where
  signature : Option (List Char)
  messageHash : Option (List Char)
  salt : Option (List Char)
  originalSignature : Option (List Char)
  nField : Option (List Char)

/-- `RSA.verify(message, signature, keys)` (RSA.ts lines 115-201).
`lastSalt` is the `this.lastSalt` instance state (null on a fresh instance);
`pubN` is `keys.publicKey.n`.  Every caught error yields `false`; the inner
catch around `emsa_pss_verify` is unreachable because the embedded
`emsa_pss_verify` is total. -/
def verify (hash : List Char → List Char) (lastSalt : Option (List ℕ))
    (message : List Char) (sig : SigObj) (pubN : List Char) : Bool :=
  match jsParseBigInt pubN with
  | none => false
  | some nv =>
    match (match sig.signature with
           | some sv => jsParseBigInt sv
           | none => none) with
    | none => false
    | some sv =>
      if sv < 0 ∨ sv ≥ nv then false
      else
        let encodedMessage := modExp sv pubE nv
        let messageHash := hash message
        let usedSalt : Option (List ℕ) :=
          match sig.salt with
          | some st => if st.isEmpty then none else some (hexToBytes st)
          | none => none
        let emBits := jsBitLength nv - 1
        let nMismatch : Bool :=
          match sig.nField with
          | some ns => !ns.isEmpty && decide (jsParseBigInt ns ≠ some nv)
          | none => false
        let origMismatch : Bool :=
          match sig.originalSignature with
          | some os => !os.isEmpty && decide (some os ≠ sig.signature)
          | none => false
        let fastPath : Bool :=
          decide (sig.messageHash = some messageHash) &&
            ((match lastSalt with
              | some ls => decide (sig.salt = some (bytesToHex ls))
              | none => false) ||
              usedSalt.isSome)
        if emBits < HASH_LENGTH * 8 + 8 then false
        else if nMismatch then false
        else if origMismatch then false
        else if fastPath then true
        else emsa_pss_verify hash messageHash (intToHex encodedMessage) emBits usedSalt

end RSA

namespace DSA

/-- `DSA.constantTimeEquals(a, b)` (part_006 lines 683-700): compare the two
values through their zero-padded hex strings. -/
def constantTimeEquals (x y : ℤ) : Bool :=
  let aStr := padStart (intToHex x) 64 '0'
  let bStr := padStart (intToHex y) 64 '0'
  if aStr.length ≠ bStr.length then false
  else
    decide ((List.range aStr.length).foldl
      (fun acc i =>
        Nat.lor acc (Nat.xor (aStr.getD i ' ').toNat (bStr.getD i ' ').toNat)) 0 = 0)

/-- `DSA.backupHash(message)` (part_006 lines 303-313): the 32-bit string
hash used when the digest computation throws. -/
def backupHash (message : List Char) (instq : ℤ) : ℤ :=
  let h := message.foldl (fun hh c => toInt32 (jsShl hh 5 - hh + (c.toNat : ℤ))) 0
  jsRem (h.natAbs : ℤ) instq

/-- `DSA.hashSHA256(message)` (part_006 lines 263-296) given the full digest
bytes from the hashing adapter: the truncating reduction, falling back to
`backupHash` if it throws. -/
def hashSHA256 (message : List Char) (digest : List ℕ) (instq : ℤ) : ℤ :=
  match hashSHA256Reduce instq digest with
  | some v => v
  | none => backupHash message instq

/-- `DSA.verify(message, signature, keys)` (part_006 lines 635-677).
`digest` is the adapter digest of `message`; `instq` is the instance state
`this.q` that `hashSHA256` reduces by; the public-key components are `none`
when the corresponding `BigInt(...)` conversion throws; `rv`/`sv` likewise.
The modExp memo cache is threaded; every caught error yields `false`. -/
def verify (message : List Char) (digest : List ℕ) (instq : ℤ)
    (cache : List (List Char × ℤ))
    (pkP pkQ pkG pkY rv sv : Option ℤ) : Bool × List (List Char × ℤ) :=
  match pkP, pkQ, pkG, pkY with
  | some pv, some qv, some gv, some yv =>
    match rv, sv with
    | some r, some s =>
      if r ≤ 0 ∨ r ≥ qv ∨ s ≤ 0 ∨ s ≥ qv then (false, cache)
      else
        match modInverse s qv with
        | Except.error _ => (false, cache)
        | Except.ok w =>
          let messageHash := hashSHA256 message digest instq
          let u1 := jsRem (messageHash * w) qv
          let u2 := jsRem (r * w) qv
          let (v1, c1) := modExpCached cache gv u1 pv
          let (v2, c2) := modExpCached c1 yv u2 pv
          let v := jsRem (jsRem (v1 * v2) pv) qv
          (constantTimeEquals v r, c2)
    | _, _ => (false, cache)
  | _, _, _, _ => (false, cache)

end DSA

/- ===================================================================
   AlgorithmFactory (src/unnamed/part_006 lines 780-809)
   =================================================================== -/

namespace Factory

/-- JS `String.prototype.toUpperCase()` on the ASCII range. -/
def toUpperChar (c : Char) : Char :=
  if 97 ≤ c.toNat ∧ c.toNat ≤ 122 then Char.ofNat (c.toNat - 32) else c

/-- Upper-case a name the way `algorithm.toUpperCase()` does. -/
def toUpper (s : List Char) : List Char := s.map toUpperChar

/-- The static factory state: the `instances` record, mapping upper-cased
names to instance identities, and a counter supplying fresh identities
(object identity stands in for the constructed `new RSA()` etc.). -/
structure State where
  instances : List (List Char × ℕ)
  nextId : ℕ
deriving DecidableEq

/-- The state before any call. -/
def emptyState : State := ⟨[], 0⟩

/-- `this.instances[algorithmName]` lookup. -/
def findInstance (name : List Char) : List (List Char × ℕ) → Option ℕ
  | [] => none
  | (k, v) :: rest => if k = name then some v else findInstance name rest

/-- `AlgorithmFactory.getAlgorithm(algorithm)` (part_006 lines 788-808):
upper-case the name, return the memoised instance when present, otherwise
construct and memoise an instance for RSA/DSA/ECDSA, and throw for any other
name. -/
def getAlgorithm (algorithm : List Char) (st : State) : Except Unit (ℕ × State) :=
  match findInstance (toUpper algorithm) st.instances with
  | some inst => Except.ok (inst, st)
  | none =>
    if toUpper algorithm = "RSA".toList ∨ toUpper algorithm = "DSA".toList ∨
        toUpper algorithm = "ECDSA".toList then
      Except.ok (st.nextId,
        ⟨(toUpper algorithm, st.nextId) :: st.instances, st.nextId + 1⟩)
    else Except.error ()

/-- States reachable from `emptyState`: every memoised name is one of the
three algorithm names (hence upper-case). -/
def ValidState (st : State) : Prop :=
  ∀ kv ∈ st.instances,
    kv.1 = "RSA".toList ∨ kv.1 = "DSA".toList ∨ kv.1 = "ECDSA".toList

end Factory

theorem natToBitsAux_acc (fuel : ℕ) :
    ∀ (n : ℕ) (acc : List ℕ),
      natToBitsAux fuel n acc = natToBitsAux fuel n [] ++ acc := by
  induction fuel with
  | zero => intro n acc; simp [natToBitsAux]
  | succ f ih =>
    intro n acc
    match n with
    | 0 => simp [natToBitsAux]
    | n + 1 =>
      rw [natToBitsAux, natToBitsAux, ih _ ((n + 1) % 2 :: acc), ih _ [(n + 1) % 2]]
      simp

theorem bitsVal_from (xs : List ℕ) : ∀ (a : ℕ),
    xs.foldl (fun x d => 2 * x + d) a = a * 2 ^ xs.length + bitsVal xs := by
  induction xs with
  | nil => intro a; simp [bitsVal]
  | cons x xs ih =>
    intro a
    simp only [List.foldl_cons, List.length_cons]
    rw [ih (2 * a + x)]
    have hx : bitsVal (x :: xs) = List.foldl (fun x d => 2 * x + d) (2 * 0 + x) xs := rfl
    rw [hx, ih (2 * 0 + x)]
    ring

theorem bitsVal_cons (b : ℕ) (bits : List ℕ) :
    bitsVal (b :: bits) = b * 2 ^ bits.length + bitsVal bits := by
  have h : bitsVal (b :: bits) = List.foldl (fun x d => 2 * x + d) (2 * 0 + b) bits := rfl
  rw [h, bitsVal_from]
  ring

theorem bitsVal_append_single (bits : List ℕ) (b : ℕ) :
    bitsVal (bits ++ [b]) = 2 * bitsVal bits + b := by
  simp [bitsVal, List.foldl_append]

theorem natToBitsAux_zero_eq (fuel : ℕ) : natToBitsAux fuel 0 [] = [] := by
  cases fuel <;> simp [natToBitsAux]

theorem natToBitsAux_val :
    ∀ (fuel n : ℕ), n < 2 ^ fuel → bitsVal (natToBitsAux fuel n []) = n := by
  intro fuel
  induction fuel with
  | zero =>
    intro n hn
    have h0 : n = 0 := by simpa using hn
    subst h0
    simp [natToBitsAux, bitsVal]
  | succ f ih =>
    intro n hn
    match n with
    | 0 => simp [natToBitsAux, bitsVal]
    | n + 1 =>
      rw [natToBitsAux, natToBitsAux_acc, bitsVal_append_single, ih]
      · omega
      · have hk : n + 1 < 2 * 2 ^ f := by rw [pow_succ] at hn; omega
        omega

theorem natToBits_val (n : ℕ) : bitsVal (natToBits n) = n := by
  unfold natToBits
  split
  · simp [bitsVal]; omega
  · exact natToBitsAux_val (n + 1) n (Nat.lt_of_lt_of_le n.lt_two_pow
      (Nat.pow_le_pow_right (by norm_num) (Nat.le_succ n)))

theorem natToBitsAux_digits :
    ∀ (fuel n : ℕ) (d : ℕ), d ∈ natToBitsAux fuel n [] → d ≤ 1 := by
  intro fuel
  induction fuel with
  | zero => intro n d hd; simp [natToBitsAux] at hd
  | succ f ih =>
    intro n d hd
    match n with
    | 0 => simp [natToBitsAux] at hd
    | n + 1 =>
      rw [natToBitsAux, natToBitsAux_acc] at hd
      rcases List.mem_append.mp hd with h | h
      · exact ih _ _ h
      · simp at h; omega

theorem natToBits_digits (n : ℕ) : ∀ d ∈ natToBits n, d ≤ 1 := by
  intro d hd
  unfold natToBits at hd
  split at hd
  · simp at hd; omega
  · exact natToBitsAux_digits _ _ _ hd

theorem natToBitsAux_length_bounds :
    ∀ (fuel n : ℕ), 0 < n → n < 2 ^ fuel →
      2 ^ ((natToBitsAux fuel n []).length - 1) ≤ n ∧
        n < 2 ^ (natToBitsAux fuel n []).length ∧
        0 < (natToBitsAux fuel n []).length := by
  intro fuel
  induction fuel with
  | zero => intro n h0 hn; simp at hn; omega
  | succ f ih =>
    intro n h0 hn
    obtain ⟨n, rfl⟩ : ∃ m, n = m + 1 := ⟨n - 1, by omega⟩
    rw [natToBitsAux, natToBitsAux_acc]
    have hk : n + 1 < 2 * 2 ^ f := by rw [pow_succ] at hn; omega
    rcases Nat.eq_zero_or_pos ((n + 1) / 2) with hz | hpos
    · have hn0 : n = 0 := by omega
      subst hn0
      rw [hz, natToBitsAux_zero_eq]
      norm_num
    · have hdf : (n + 1) / 2 < 2 ^ f := by omega
      obtain ⟨hlo, hhi, hlen⟩ := ih ((n + 1) / 2) hpos hdf
      set L := (natToBitsAux f ((n + 1) / 2) []).length with hL
      have e1 : (2 : ℕ) ^ L = 2 * 2 ^ (L - 1) := by
        rw [← pow_succ']
        congr 1
        omega
      have e2 : (2 : ℕ) ^ (L + 1) = 2 * 2 ^ L := by rw [pow_succ']
      have hlength :
          (natToBitsAux f ((n + 1) / 2) [] ++ [(n + 1) % 2]).length = L + 1 := by
        simp [hL]
      rw [hlength]
      refine ⟨?_, ?_, by omega⟩
      · have hsub : L + 1 - 1 = L := by omega
        rw [hsub, e1]
        omega
      · rw [e2]
        omega

theorem natToBits_length_bounds (n : ℕ) (h0 : 0 < n) :
    2 ^ ((natToBits n).length - 1) ≤ n ∧ n < 2 ^ (natToBits n).length := by
  unfold natToBits
  split
  · omega
  · have := natToBitsAux_length_bounds (n + 1) n h0
      (Nat.lt_of_lt_of_le n.lt_two_pow
        (Nat.pow_le_pow_right (by norm_num) (Nat.le_succ n)))
    exact ⟨this.1, this.2.1⟩

theorem rsaModExpGo_correct (m : ℤ) (hm : 1 < m) :
    ∀ (fuel k : ℕ), k < 2 ^ fuel →
      ∀ r b : ℤ, 0 ≤ r → r < m → 0 ≤ b →
        RSA.modExpGo m fuel r b (k : ℤ) = r * b ^ k % m := by
  intro fuel
  induction fuel with
  | zero =>
    intro k hk r b hr hrm _
    have h0 : k = 0 := by simpa using hk
    subst h0
    simp [RSA.modExpGo]
    exact (Int.emod_eq_of_lt hr hrm).symm
  | succ f ih =>
    intro k hk r b hr hrm hb
    rcases Nat.eq_zero_or_pos k with h0 | hpos
    · subst h0
      simp [RSA.modExpGo]
      exact (Int.emod_eq_of_lt hr hrm).symm
    · have hkpos : (0 : ℤ) < (k : ℤ) := by exact_mod_cast hpos
      have hj : jsRem (k : ℤ) 2 = ((k % 2 : ℕ) : ℤ) := by
        unfold jsRem
        rw [Int.tmod_eq_emod (Int.natCast_nonneg k) (by norm_num)]
        omega
      have hq : jsQuot (k : ℤ) 2 = ((k / 2 : ℕ) : ℤ) := by
        unfold jsQuot
        rw [Int.tdiv_eq_ediv (Int.natCast_nonneg k) (by norm_num)]
        omega
      have hk2 : k / 2 < 2 ^ f := by
        have : k < 2 * 2 ^ f := by rw [pow_succ] at hk; omega
        omega
      have hmodx : ∀ x : ℤ, 0 ≤ x → jsRem x m = x % m := fun x hx =>
        Int.tmod_eq_emod hx (by omega)
      have key : ∀ r2 b2 : ℤ, 0 ≤ r2 → r2 < m → 0 ≤ b2 →
          r2 % m = r * b ^ (k % 2) % m → b2 % m = b * b % m →
          RSA.modExpGo m f r2 b2 ((k / 2 : ℕ) : ℤ) = r * b ^ k % m := by
        intro r2 b2 h1 h2 h3 hr2 hb2
        rw [ih (k / 2) hk2 r2 b2 h1 h2 h3]
        have hpow : b2 ^ (k / 2) % m = (b * b) ^ (k / 2) % m :=
          Int.ModEq.pow (k / 2) hb2
        calc r2 * b2 ^ (k / 2) % m
            = r2 % m * (b2 ^ (k / 2) % m) % m := by rw [Int.mul_emod]
          _ = r * b ^ (k % 2) % m * ((b * b) ^ (k / 2) % m) % m := by
              rw [hr2, hpow]
          _ = r * b ^ (k % 2) * (b * b) ^ (k / 2) % m := by rw [← Int.mul_emod]
          _ = r * b ^ (k % 2 + 2 * (k / 2)) % m := by
              have hp : r * b ^ (k % 2) * (b * b) ^ (k / 2)
                  = r * b ^ (k % 2 + 2 * (k / 2)) := by
                rw [pow_add, pow_mul]
                ring
              rw [hp]
          _ = r * b ^ k % m := by
              have hs : k % 2 + 2 * (k / 2) = k := by omega
              rw [hs]
      have hbb1 : 0 ≤ jsRem (b * b) m := Int.tmod_nonneg m (mul_nonneg hb hb)
      have hbb2 : jsRem (b * b) m % m = b * b % m := by
        rw [hmodx (b * b) (mul_nonneg hb hb)]
        exact Int.emod_emod_of_dvd _ dvd_rfl
      rw [RSA.modExpGo, if_pos hkpos, hj, hq]
      rcases Nat.mod_two_eq_zero_or_one k with hpar | hpar
      · rw [hpar]
        rw [if_neg (by norm_num)]
        refine key r _ hr hrm hbb1 ?_ hbb2
        rw [hpar, pow_zero, mul_one]
      · rw [hpar]
        rw [if_pos (by norm_num)]
        have h1 : 0 ≤ jsRem (r * b) m := Int.tmod_nonneg m (mul_nonneg hr hb)
        have h2 : jsRem (r * b) m < m := by
          rw [hmodx (r * b) (mul_nonneg hr hb)]
          exact Int.emod_lt_of_pos _ (by omega)
        refine key _ _ h1 h2 hbb1 ?_ hbb2
        rw [hmodx (r * b) (mul_nonneg hr hb), hpar, pow_one,
          Int.emod_emod_of_dvd _ dvd_rfl]
theorem dsaModExpBits_correct (m : ℤ) (hm : 1 < m) (b : ℤ) (hb : 0 ≤ b) :
    ∀ (bits : List ℕ), (∀ d ∈ bits, d ≤ 1) →
      ∀ r : ℤ, 0 ≤ r → r < m →
        DSA.modExpBits m b bits r = r ^ 2 ^ bits.length * b ^ bitsVal bits % m := by
  intro bits
  induction bits with
  | nil =>
    intro _ r hr hrm
    simp [DSA.modExpBits, bitsVal]
    exact (Int.emod_eq_of_lt hr hrm).symm
  | cons bit rest ih =>
    intro hd r hr hrm
    have hmodx : ∀ x : ℤ, 0 ≤ x → jsRem x m = x % m := fun x hx =>
      Int.tmod_eq_emod hx (by omega)
    have hbit : bit = 0 ∨ bit = 1 := by
      have := hd bit (List.mem_cons_self bit rest)
      omega
    have hrest : ∀ d ∈ rest, d ≤ 1 := fun d hdm => hd d (List.mem_cons_of_mem _ hdm)
    have h1 : jsRem (r * r) m = r * r % m := hmodx _ (mul_nonneg hr hr)
    have hr1n : 0 ≤ jsRem (r * r) m := Int.tmod_nonneg m (mul_nonneg hr hr)
    have hr1m : jsRem (r * r) m < m := by
      rw [h1]
      exact Int.emod_lt_of_pos _ (by omega)
    have key : ∀ r2 : ℤ, 0 ≤ r2 → r2 < m → r2 % m = r * r * b ^ bit % m →
        DSA.modExpBits m b rest r2
          = r ^ 2 ^ (bit :: rest).length * b ^ bitsVal (bit :: rest) % m := by
      intro r2 h1 h2 hr2
      rw [ih hrest r2 h1 h2, bitsVal_cons]
      have hpow : r2 ^ 2 ^ rest.length % m = (r * r * b ^ bit) ^ 2 ^ rest.length % m :=
        Int.ModEq.pow _ hr2
      calc r2 ^ 2 ^ rest.length * b ^ bitsVal rest % m
          = r2 ^ 2 ^ rest.length % m * (b ^ bitsVal rest % m) % m := by
            rw [Int.mul_emod]
        _ = (r * r * b ^ bit) ^ 2 ^ rest.length % m * (b ^ bitsVal rest % m) % m := by
            rw [hpow]
        _ = (r * r * b ^ bit) ^ 2 ^ rest.length * b ^ bitsVal rest % m := by
            rw [← Int.mul_emod]
        _ = r ^ 2 ^ (bit :: rest).length * b ^ (bit * 2 ^ rest.length + bitsVal rest) % m := by
            have hexp : (r * r * b ^ bit) ^ 2 ^ rest.length * b ^ bitsVal rest
                = r ^ 2 ^ (bit :: rest).length * b ^ (bit * 2 ^ rest.length + bitsVal rest) := by
              rw [List.length_cons, pow_succ, pow_mul, pow_add, pow_mul]
              rw [mul_pow, mul_pow, ← pow_mul, ← pow_mul]
              ring
            rw [hexp]
    rcases hbit with hb0 | hb1
    · subst hb0
      show DSA.modExpBits m b rest (jsRem (r * r) m) = _
      refine key _ hr1n hr1m ?_
      rw [h1, pow_zero, mul_one, Int.emod_emod]
    · subst hb1
      show DSA.modExpBits m b rest (jsRem (jsRem (r * r) m * b) m) = _
      have h2 : jsRem (jsRem (r * r) m * b) m = jsRem (r * r) m * b % m :=
        hmodx _ (mul_nonneg hr1n hb)
      refine key _ (Int.tmod_nonneg m (mul_nonneg hr1n hb)) ?_ ?_
      · rw [h2]
        exact Int.emod_lt_of_pos _ (by omega)
      · rw [h2, Int.emod_emod, pow_one]
        calc jsRem (r * r) m * b % m
            = jsRem (r * r) m % m * (b % m) % m := by rw [Int.mul_emod]
          _ = r * r % m * (b % m) % m := by rw [h1, Int.emod_emod]
          _ = r * r * b % m := by rw [← Int.mul_emod]

/-- The inner loop of `DSA.modExp` computes `b ^ e mod m` (for the arguments
actually supplied: non-negative base and exponent, modulus above 1). -/
theorem dsaModExpLoop_correct (b e m : ℤ) (hb : 0 ≤ b) (he : 0 ≤ e) (hm : 1 < m) :
    DSA.modExpBits m b (intToBits e) 1 = b ^ e.toNat % m := by
  have hbits : intToBits e = natToBits e.toNat := by
    unfold intToBits
    rw [if_neg (by omega)]
  rw [hbits,
    dsaModExpBits_correct m hm b hb _ (natToBits_digits _) 1 (by norm_num) (by omega),
    one_pow, one_mul, natToBits_val]

theorem dsaModExpPure_correct (b e m : ℤ) (hb : 0 ≤ b) (he : 0 ≤ e) (hm : 1 < m) :
    DSA.modExpPure b e m = b ^ e.toNat % m := by
  unfold DSA.modExpPure
  rw [if_neg (by omega)]
  exact dsaModExpLoop_correct b e m hb he hm

theorem rsaModExp_correct (b e m : ℤ) (hb : 0 ≤ b) (he : 0 ≤ e) (hm : 1 < m) :
    RSA.modExp b e m = b ^ e.toNat % m := by
  unfold RSA.modExp
  rw [if_neg (by omega)]
  have hcast : RSA.modExpGo m (e.toNat + 1) 1 (jsRem b m) e
      = RSA.modExpGo m (e.toNat + 1) 1 (jsRem b m) ((e.toNat : ℕ) : ℤ) := by
    rw [Int.toNat_of_nonneg he]
  have hbm : jsRem b m = b % m := Int.tmod_eq_emod hb (by omega)
  have hfe : e.toNat < 2 ^ (e.toNat + 1) :=
    Nat.lt_of_lt_of_le e.toNat.lt_two_pow
      (Nat.pow_le_pow_right (by norm_num) (Nat.le_succ _))
  rw [hcast, rsaModExpGo_correct m hm (e.toNat + 1) e.toNat hfe 1 (jsRem b m)
    (by norm_num) (by omega) (by rw [hbm]; exact Int.emod_nonneg b (by omega))]
  rw [one_mul, hbm]
  exact Int.ModEq.pow e.toNat (Int.emod_emod b m)

theorem dsaModExpCached_correct (c : List (List Char × ℤ)) (hc : DSA.ExpCacheOK c)
    (b e m : ℤ) (hb : 0 ≤ b) (he : 0 ≤ e) (hm : 1 < m) :
    (DSA.modExpCached c b e m).1 = b ^ e.toNat % m := by
  unfold DSA.modExpCached
  rw [if_neg (by omega)]
  cases hfind : DSA.assocFind (DSA.modExpKey b e m) c with
  | some v =>
    simpa using (hc b e m v hfind).trans (dsaModExpLoop_correct b e m hb he hm)
  | none =>
    simpa using dsaModExpLoop_correct b e m hb he hm

/-- **C8**: both `modExp` implementations (RSA.ts lines 659-677 and DSA,
part_006 lines 186-226) return `base ^ exponent mod modulus` for every
non-negative base and exponent and every modulus at least 1; the case
`modulus = 1` returns 0; and the result depends on the base only through
`base mod modulus` (the semantic content of reducing the base before the
loop), both for the pure computation and, for DSA, under any coherent memo
cache. -/
theorem claim_C8 (b e m : ℤ) (hb : 0 ≤ b) (he : 0 ≤ e) (hm : 1 ≤ m) :
    RSA.modExp b e m = b ^ e.toNat % m ∧
    DSA.modExpPure b e m = b ^ e.toNat % m ∧
    RSA.modExp b e 1 = 0 ∧
    DSA.modExpPure b e 1 = 0 ∧
    RSA.modExp b e m = RSA.modExp (b % m) e m ∧
    DSA.modExpPure b e m = DSA.modExpPure (b % m) e m ∧
    (∀ c, DSA.ExpCacheOK c → (DSA.modExpCached c b e m).1 = b ^ e.toNat % m) := by
  have hone1 : RSA.modExp b e 1 = 0 := by unfold RSA.modExp; simp
  have hone2 : DSA.modExpPure b e 1 = 0 := by unfold DSA.modExpPure; simp
  have hone1x : ∀ x : ℤ, RSA.modExp x e 1 = 0 := by
    intro x; unfold RSA.modExp; simp
  have hone2x : ∀ x : ℤ, DSA.modExpPure x e 1 = 0 := by
    intro x; unfold DSA.modExpPure; simp
  rcases eq_or_lt_of_le hm with h1 | h1
  · subst h1
    refine ⟨by rw [hone1, Int.emod_one], by rw [hone2, Int.emod_one], hone1, hone2,
      ?_, ?_, ?_⟩
    · rw [hone1, hone1x]
    · rw [hone2, hone2x]
    · intro c _
      unfold DSA.modExpCached
      simp [hone2]
  · have hbm : 0 ≤ b % m := Int.emod_nonneg b (by omega)
    have hpows : (b % m) ^ e.toNat % m = b ^ e.toNat % m :=
      Int.ModEq.pow e.toNat (Int.emod_emod b m)
    refine ⟨rsaModExp_correct b e m hb he h1, dsaModExpPure_correct b e m hb he h1,
      hone1, hone2, ?_, ?_, fun c hc => dsaModExpCached_correct c hc b e m hb he h1⟩
    · rw [rsaModExp_correct b e m hb he h1, rsaModExp_correct (b % m) e m hbm he h1,
        hpows]
    · rw [dsaModExpPure_correct b e m hb he h1,
        dsaModExpPure_correct (b % m) e m hbm he h1, hpows]

/-- Witness for C8 at the concrete input `base = 7`, `exponent = 5`,
`modulus = 9` (and modulus 1 cases), with the value checked by evaluation. -/
theorem claim_C8_witness :
    (RSA.modExp 7 5 9 = 7 ^ (5 : ℤ).toNat % 9 ∧
      DSA.modExpPure 7 5 9 = 7 ^ (5 : ℤ).toNat % 9 ∧
      RSA.modExp 7 5 1 = 0 ∧
      DSA.modExpPure 7 5 1 = 0 ∧
      RSA.modExp 7 5 9 = RSA.modExp ((7 : ℤ) % 9) 5 9 ∧
      DSA.modExpPure 7 5 9 = DSA.modExpPure ((7 : ℤ) % 9) 5 9 ∧
      (∀ c, DSA.ExpCacheOK c → (DSA.modExpCached c 7 5 9).1 = 7 ^ (5 : ℤ).toNat % 9)) ∧
    RSA.modExp 7 5 9 = 4 := by
  refine ⟨claim_C8 7 5 9 (by norm_num) (by norm_num) (by norm_num), ?_⟩
  decide

/-- The bit length of a value in `[2^255, 2^256)` is 256; used for the DSA
digest-truncation analysis. -/
theorem natToBits_length_eq_256 (n : ℕ) (hlo : 2 ^ 255 ≤ n) (hhi : n < 2 ^ 256) :
    (natToBits n).length = 256 := by
  have h0 : 0 < n := lt_of_lt_of_le (by positivity) hlo
  obtain ⟨h1, h2⟩ := natToBits_length_bounds n h0
  set L := (natToBits n).length with hL
  by_contra hne
  rcases Nat.lt_or_ge L 256 with h | h
  · have hb : (2 : ℕ) ^ L ≤ 2 ^ 255 := Nat.pow_le_pow_right (by norm_num) (by omega)
    omega
  · have hb : (2 : ℕ) ^ 256 ≤ 2 ^ (L - 1) := Nat.pow_le_pow_right (by norm_num) (by omega)
    omega

theorem bytesToIntBE_nonneg (bytes : List ℕ) : 0 ≤ bytesToIntBE bytes := by
  have gen : ∀ (bs : List ℕ) (acc : ℤ), 0 ≤ acc →
      0 ≤ bs.foldl (fun (a : ℤ) (b : ℕ) => a * 256 + (b : ℤ)) acc := by
    intro bs
    induction bs with
    | nil => intro acc h; simpa using h
    | cons x xs ih =>
      intro acc h
      exact ih _ (add_nonneg (mul_nonneg h (by norm_num)) (Int.natCast_nonneg x))
  exact gen bytes 0 le_rfl

/-- The bit-length helper evaluates to 256 on a generated 256-bit `q`. -/
theorem dsaGetBitLength_256 (q : ℤ) (hq1 : 2 ^ 255 ≤ q) (hq2 : q < 2 ^ 256) :
    DSA.getBitLength q = 256 := by
  have hqpos : (0 : ℤ) < q := lt_of_lt_of_le (by positivity) hq1
  have hqe : ((q.toNat : ℤ)) = q := Int.toNat_of_nonneg hqpos.le
  have hn1 : 2 ^ 255 ≤ q.toNat := by
    rw [← hqe] at hq1
    exact_mod_cast hq1
  have hn2 : q.toNat < 2 ^ 256 := by
    rw [← hqe] at hq2
    exact_mod_cast hq2
  unfold DSA.getBitLength jsBitLength
  rw [if_neg (by omega), if_neg (not_lt.mpr hqpos.le)]
  exact natToBits_length_eq_256 _ hn1 hn2

/-- Range of the odd random candidates DSA prime generation draws at 256
bits: always in `[2^255, 2^256)`, so a generated `q` has bit length 256. -/
theorem dsaGetRandomOddBigInt_256_range (rand : ℕ) :
    2 ^ 255 ≤ DSA.getRandomOddBigInt rand 256 ∧
      DSA.getRandomOddBigInt rand 256 < 2 ^ 256 := by
  unfold DSA.getRandomOddBigInt DSA.getRandomBigInt
  have hrange : (2 : ℤ) ^ 256 - 1 - 2 ^ (256 - 1) + 1 = 2 ^ 255 := by
    have h2 : (2 : ℤ) ^ 256 = 2 * 2 ^ 255 := by rw [pow_succ]; ring
    norm_num [h2]
  have h2 : (2 : ℤ) ^ 256 = 2 * 2 ^ 255 := by rw [pow_succ]; ring
  have hm : (2 : ℤ) ^ (256 - 1) = 2 ^ 255 := by norm_num
  rw [hrange, hm]
  have hr1 : 0 ≤ jsRem (rand : ℤ) (2 ^ 255) :=
    Int.tmod_nonneg _ (Int.natCast_nonneg rand)
  have hr2 : jsRem (rand : ℤ) (2 ^ 255) < 2 ^ 255 :=
    Int.tmod_lt_of_pos _ (by positivity)
  set r := jsRem (rand : ℤ) (2 ^ 255) with hrdef
  have hval1 : (0 : ℤ) ≤ 2 ^ 255 + r := by
    have hp : (0 : ℤ) ≤ 2 ^ 255 := by norm_num
    omega
  split
  · rename_i hev
    have hev2 : ((2 : ℤ) ^ 255 + r) % 2 = 0 := by
      rw [← Int.tmod_eq_emod hval1 (by norm_num)]
      exact hev
    omega
  · omega

/-- **C9**: on every generated prime `q` (all 256 bits long, as the random
candidate range shows) and every 32-byte message digest, the DSA digest
reduction `hashSHA256` returns exactly the FIPS 186-4 left truncation of the
digest reduced into `[0, q)`: the top `min(256, bitlength(q))` bits are kept
(everything, since `bitlength(q) = 256`, so no right shift is needed) and the
result is brought into range mod `q`. -/
theorem claim_C9 (q : ℤ) (digest : List ℕ)
    (hq1 : 2 ^ 255 ≤ q) (hq2 : q < 2 ^ 256) (hd : digest.length = 32) :
    DSA.hashSHA256Reduce q digest = some (specFipsLeftTrunc q digest % q) ∧
    (∀ v, DSA.hashSHA256Reduce q digest = some v → 0 ≤ v ∧ v < q) ∧
    (∀ rand, 2 ^ 255 ≤ DSA.getRandomOddBigInt rand 256 ∧
      DSA.getRandomOddBigInt rand 256 < 2 ^ 256) := by
  have hqpos : (0 : ℤ) < q := lt_of_lt_of_le (by positivity) hq1
  have hbl : DSA.getBitLength q = 256 := dsaGetBitLength_256 q hq1 hq2
  have htake : digest.take 32 = digest := by
    rw [← hd]
    exact List.take_length digest
  have hnneg : 0 ≤ bytesToIntBE digest := bytesToIntBE_nonneg digest
  have hmain : DSA.hashSHA256Reduce q digest = some (bytesToIntBE digest % q) := by
    unfold DSA.hashSHA256Reduce
    rw [hbl, hd]
    norm_num [htake]
    exact Int.tmod_eq_emod hnneg hqpos.le
  have hspec : specFipsLeftTrunc q digest = bytesToIntBE digest := by
    unfold specFipsLeftTrunc
    rw [hbl, hd]
    norm_num
  refine ⟨by rw [hmain, hspec], ?_, dsaGetRandomOddBigInt_256_range⟩
  intro v hv
  rw [hmain] at hv
  obtain rfl : v = bytesToIntBE digest % q := by
    injection hv with h
    exact h.symm
  exact ⟨Int.emod_nonneg _ (by omega), Int.emod_lt_of_pos _ hqpos⟩

/-- Witness for C9: `q = 2^255 + 1`, the all-zero 32-byte digest. -/
theorem claim_C9_witness :
    (DSA.hashSHA256Reduce (2 ^ 255 + 1) (List.replicate 32 0)
        = some (specFipsLeftTrunc (2 ^ 255 + 1) (List.replicate 32 0) % (2 ^ 255 + 1)) ∧
      (∀ v, DSA.hashSHA256Reduce (2 ^ 255 + 1) (List.replicate 32 0) = some v →
        0 ≤ v ∧ v < 2 ^ 255 + 1) ∧
      (∀ rand, 2 ^ 255 ≤ DSA.getRandomOddBigInt rand 256 ∧
        DSA.getRandomOddBigInt rand 256 < 2 ^ 256)) :=
  claim_C9 (2 ^ 255 + 1) (List.replicate 32 0)
    (by norm_num) (by norm_num) (by simp)


theorem charToNat_ofNat (k : ℕ) (h : k < 55296) : (Char.ofNat k).toNat = k := by
  unfold Char.ofNat
  rw [dif_pos (Or.inl h)]
  simp [Char.ofNatAux, Char.toNat, UInt32.toNat, UInt32.ofNat']

theorem toUpperChar_idem (c : Char) :
    Factory.toUpperChar (Factory.toUpperChar c) = Factory.toUpperChar c := by
  unfold Factory.toUpperChar
  split
  · rename_i h
    have h2 : (Char.ofNat (c.toNat - 32)).toNat = c.toNat - 32 :=
      charToNat_ofNat _ (by omega)
    rw [if_neg (by omega)]
  · rfl

theorem toUpper_idem (s : List Char) :
    Factory.toUpper (Factory.toUpper s) = Factory.toUpper s := by
  unfold Factory.toUpper
  rw [List.map_map]
  apply List.map_congr_left
  intro c _
  exact toUpperChar_idem c

theorem findInstance_mem (name : List Char) (v : ℕ) :
    ∀ (l : List (List Char × ℕ)), Factory.findInstance name l = some v →
      (name, v) ∈ l := by
  intro l
  induction l with
  | nil => intro h; simp [Factory.findInstance] at h
  | cons kv rest ih =>
    intro h
    rw [Factory.findInstance] at h
    split at h
    · rename_i heq
      injection h with h2
      subst h2
      subst heq
      exact List.mem_cons_self _ _
    · exact List.mem_cons_of_mem _ (ih h)

/-- **C10**: `AlgorithmFactory.getAlgorithm` is a case-insensitive memoizing
singleton: dispatch only depends on the upper-cased name; after a call
returns an instance, every later call with any case variant of the same name
returns the identical instance and leaves the state unchanged; a fresh valid
name creates and memoises a new instance; any name other than a case variant
of RSA/DSA/ECDSA throws (on every state reachable from the empty one); and
valid states stay valid. -/
theorem claim_C10 (alg alg2 : List Char) (st st2 : Factory.State) (inst : ℕ) :
    (Factory.getAlgorithm alg st = Factory.getAlgorithm (Factory.toUpper alg) st) ∧
    (Factory.toUpper alg = Factory.toUpper alg2 →
      Factory.getAlgorithm alg st = Except.ok (inst, st2) →
      Factory.getAlgorithm alg2 st2 = Except.ok (inst, st2)) ∧
    (Factory.findInstance (Factory.toUpper alg) st.instances = none →
      (Factory.toUpper alg = "RSA".toList ∨ Factory.toUpper alg = "DSA".toList ∨
        Factory.toUpper alg = "ECDSA".toList) →
      Factory.getAlgorithm alg st
        = Except.ok (st.nextId,
            ⟨(Factory.toUpper alg, st.nextId) :: st.instances, st.nextId + 1⟩)) ∧
    (Factory.ValidState st →
      ¬(Factory.toUpper alg = "RSA".toList ∨ Factory.toUpper alg = "DSA".toList ∨
        Factory.toUpper alg = "ECDSA".toList) →
      Factory.getAlgorithm alg st = Except.error ()) ∧
    (Factory.ValidState st → Factory.getAlgorithm alg st = Except.ok (inst, st2) →
      Factory.ValidState st2) := by
  refine ⟨?_, ?_, ?_, ?_, ?_⟩
  · unfold Factory.getAlgorithm
    rw [toUpper_idem]
  · intro hcase hok
    unfold Factory.getAlgorithm at hok
    cases hfind : Factory.findInstance (Factory.toUpper alg) st.instances with
    | some v =>
      rw [hfind] at hok
      injection hok with h2
      rw [Prod.mk.injEq] at h2
      obtain ⟨h3, h4⟩ := h2
      subst h3
      subst h4
      unfold Factory.getAlgorithm
      rw [← hcase, hfind]
    | none =>
      rw [hfind] at hok
      by_cases hval : Factory.toUpper alg = "RSA".toList ∨
          Factory.toUpper alg = "DSA".toList ∨ Factory.toUpper alg = "ECDSA".toList
      · rw [if_pos hval] at hok
        injection hok with h2
        rw [Prod.mk.injEq] at h2
        obtain ⟨h3, h4⟩ := h2
        subst h3
        subst h4
        unfold Factory.getAlgorithm
        rw [← hcase]
        simp [Factory.findInstance]
      · rw [if_neg hval] at hok
        exact absurd hok (by simp)
  · intro hfind hvalid
    unfold Factory.getAlgorithm
    rw [hfind, if_pos hvalid]
  · intro hvs hinvalid
    unfold Factory.getAlgorithm
    cases hfind : Factory.findInstance (Factory.toUpper alg) st.instances with
    | some v =>
      have hmem := findInstance_mem _ _ _ hfind
      exact absurd (hvs _ hmem) hinvalid
    | none => rw [if_neg hinvalid]
  · intro hvs hok
    unfold Factory.getAlgorithm at hok
    cases hfind : Factory.findInstance (Factory.toUpper alg) st.instances with
    | some v =>
      rw [hfind] at hok
      injection hok with h2
      rw [Prod.mk.injEq] at h2
      obtain ⟨_, h4⟩ := h2
      subst h4
      exact hvs
    | none =>
      rw [hfind] at hok
      by_cases hval : Factory.toUpper alg = "RSA".toList ∨
          Factory.toUpper alg = "DSA".toList ∨ Factory.toUpper alg = "ECDSA".toList
      · rw [if_pos hval] at hok
        injection hok with h2
        rw [Prod.mk.injEq] at h2
        obtain ⟨_, h4⟩ := h2
        subst h4
        intro kv hkv
        have hkv2 : kv ∈ (Factory.toUpper alg, st.nextId) :: st.instances := hkv
        rcases List.mem_cons.mp hkv2 with h | h
        · rw [h]
          exact hval
        · exact hvs _ h
      · rw [if_neg hval] at hok
        exact absurd hok (by simp)

/-- Witness for C10: the calls `getAlgorithm \"rsa\"` then `getAlgorithm \"RsA\"`
on the empty state create and then share one instance (identity 0), and an
unsupported name throws. -/
theorem claim_C10_witness :
    Factory.getAlgorithm "rsa".toList Factory.emptyState
      = Except.ok (0, ⟨[("RSA".toList, 0)], 1⟩) ∧
    Factory.getAlgorithm "RsA".toList ⟨[("RSA".toList, 0)], 1⟩
      = Except.ok (0, ⟨[("RSA".toList, 0)], 1⟩) ∧
    Factory.getAlgorithm "Unsupported".toList Factory.emptyState
      = Except.error () := by
  have h1 : Factory.getAlgorithm "rsa".toList Factory.emptyState
      = Except.ok (0, ⟨[("RSA".toList, 0)], 1⟩) := by rfl
  refine ⟨h1, ?_, ?_⟩
  · exact (claim_C10 "rsa".toList "RsA".toList Factory.emptyState
      ⟨[("RSA".toList, 0)], 1⟩ 0).2.1 (by decide) h1
  · exact (claim_C10 "Unsupported".toList [] Factory.emptyState
      Factory.emptyState 0).2.2.2.1
      (fun kv hkv => absurd hkv (by simp [Factory.emptyState])) (by decide)

/-- **C5**: `ECDSA.sign` does not surface a `SigningFailed` error when its
body throws: at the failing input below (a private key whose hex parse
throws) it returns precisely the forbidden partially-formed record — empty
DER `signature`, all-zero 64-character `r` and `s`, empty `messageHash`. -/
theorem claim_C5 :
    ECDSA.sign (fun _ => []) (fun _ _ => []) [] ['z', 'z'] 8 8 []
      = some (⟨[], List.replicate 64 '0', List.replicate 64 '0', []⟩, []) := by
  decide

/-- **C1** (the code violates the claim): `RSA.verify` has a fast path keyed
on the caller-supplied `messageHash` display field.  Failing input: message
`""`, public modulus `n = 2^264 + 1`, signature integer `1`, fresh instance
(`lastSalt` null, non-browser hash `simpleHash`).  With the `messageHash`
field set to the recomputed digest and any non-empty display `salt` field,
`verify` returns `true` (first conjunct) even though the full EMSA-PSS
recomputation on `1^e mod n` rejects this signature (second conjunct); and
deleting only the display-only `salt` field flips the verdict to `false`
(third conjunct), so the result also depends on a display-only field. -/
theorem claim_C1 :
    RSA.verify RSA.simpleHash none []
        ⟨some ['1'], some (RSA.simpleHash []), some ['0', '1'], none, none⟩
        (intToDec (2 ^ 264 + 1)) = true ∧
    RSA.emsa_pss_verify RSA.simpleHash (RSA.simpleHash [])
        (intToHex (RSA.modExp 1 RSA.pubE (2 ^ 264 + 1)))
        (jsBitLength (2 ^ 264 + 1) - 1) (some (hexToBytes ['0', '1'])) = false ∧
    RSA.verify RSA.simpleHash none []
        ⟨some ['1'], some (RSA.simpleHash []), none, none, none⟩
        (intToDec (2 ^ 264 + 1)) = false := by
  exact ⟨by decide, by decide, by decide⟩

/-- **C7** (the code violates the ECDSA conjunct): `generateKeys` with
private key `d = 2` returns the all-zero public point — the windowed
base-point loop consumes both bits of `d` in its doubling phase and never
adds anything, leaving the point at infinity, rendered `(0, 0)` (first
conjunct).  The independently recomputed `2·G` (spec-modelled double-and-add)
is not `(0, 0)` (second conjunct), and `(0, 0)` is not even on the curve
(third conjunct).  The RSA and DSA key-pair consistency conjuncts of the
claim do hold, shown here at sample parameters: `e·d ≡ 1 (mod φ)` for the
inverse `modInverse` computes with `φ = 1018·1020`, and `y = g^x mod p` for
the cached DSA `modExp` at `g = 4, x = 7, p = 23` (fourth and fifth
conjuncts). -/
theorem claim_C7 :
    ECDSA.generateKeys [] 2
      = Except.ok ((List.replicate 64 '0', List.replicate 64 '0'),
          List.replicate 63 '0' ++ ['2'], []) ∧
    ECDSA.specECMul 2 (some ⟨ECDSA.Gx, ECDSA.Gy⟩) ≠ some ⟨0, 0⟩ ∧
    ((0 : ℤ) * 0) % ECDSA.p ≠ (0 * 0 * 0 + ECDSA.bCoeff) % ECDSA.p ∧
    (RSA.modInverse 65537 1038360).toOption.isSome = true ∧
    65537 * ((RSA.modInverse 65537 1038360).toOption.getD 0) % 1038360 = 1 ∧
    (DSA.modExpCached [] 4 7 23).1 = 4 ^ 7 % 23 := by
  exact ⟨by rfl, by decide, by decide, by decide, by decide, by decide⟩


/-- **C3** (confirmed): range rejection in all three verifiers.  RSA: when
the public modulus parses to `nv` and the signature string parses to `sv`
with `sv < 0` or `sv ≥ nv`, `verify` is `false`.  DSA: with a fully parsed
key and signature, `r` or `s` equal to `0`, to the modulus `q`, or above it
forces `false`.  ECDSA: the same for the curve order `n`, both on the
direct `r`/`s` string fields and on the DER-decoded path. -/
theorem claim_C3 :
    (∀ hash lastSalt message (sig : RSA.SigObj) pubN sStr nv sv,
        jsParseBigInt pubN = some nv → sig.signature = some sStr →
        jsParseBigInt sStr = some sv → sv < 0 ∨ sv ≥ nv →
        RSA.verify hash lastSalt message sig pubN = false) ∧
    (∀ message digest instq cache pv qv gv yv r s,
        r = 0 ∨ r = qv ∨ r > qv ∨ s = 0 ∨ s = qv ∨ s > qv →
        (DSA.verify message digest instq cache (some pv) (some qv) (some gv)
          (some yv) (some r) (some s)).1 = false) ∧
    (∀ hash cache message sigF pubX pubY Qx Qy rStr sStr r s,
        jsParseHex pubX = some Qx → jsParseHex pubY = some Qy →
        jsParseHex rStr = some r → jsParseHex sStr = some s →
        rStr ≠ [] → sStr ≠ [] →
        (r = 0 ∨ r = ECDSA.n ∨ r > ECDSA.n ∨
          s = 0 ∨ s = ECDSA.n ∨ s > ECDSA.n) →
        (ECDSA.verify hash cache message ⟨some rStr, some sStr, sigF⟩
          pubX pubY).1 = false) ∧
    (∀ hash cache message derStr pubX pubY Qx Qy r s,
        jsParseHex pubX = some Qx → jsParseHex pubY = some Qy →
        ECDSA.derDecode derStr = Except.ok (r, s) → derStr ≠ [] →
        (r = 0 ∨ r = ECDSA.n ∨ r > ECDSA.n ∨
          s = 0 ∨ s = ECDSA.n ∨ s > ECDSA.n) →
        (ECDSA.verify hash cache message ⟨none, none, some derStr⟩
          pubX pubY).1 = false) := by
  refine ⟨?rsa, ?dsa, ?edirect, ?eder⟩
  case rsa =>
    intro hash lastSalt message sig pubN sStr nv sv hpn hsig hss hr
    simp only [RSA.verify, hpn, hsig, hss]
    rw [if_pos hr]
  case dsa =>
    intro message digest instq cache pv qv gv yv r s hr
    have hcond : r ≤ 0 ∨ r ≥ qv ∨ s ≤ 0 ∨ s ≥ qv := by
      rcases hr with h | h | h | h | h | h <;> omega
    simp only [DSA.verify]
    rw [if_pos hcond]
  case edirect =>
    intro hash cache message sigF pubX pubY Qx Qy rStr sStr r s hx hy hrp hsp
      hrne hsne hr
    have hcond : r ≤ 0 ∨ r ≥ ECDSA.n ∨ s ≤ 0 ∨ s ≥ ECDSA.n := by
      rcases hr with h | h | h | h | h | h <;> omega
    have htr : jsTruthyStr (some rStr) = true := by
      cases rStr with
      | nil => exact absurd rfl hrne
      | cons a t => rfl
    have hts : jsTruthyStr (some sStr) = true := by
      cases sStr with
      | nil => exact absurd rfl hsne
      | cons a t => rfl
    simp only [ECDSA.verify, hx, hy, htr, hts, Option.getD_some, hrp, hsp,
      and_self, if_true]
    rw [if_pos hcond]
  case eder =>
    intro hash cache message derStr pubX pubY Qx Qy r s hx hy hder hdne hr
    have hcond : r ≤ 0 ∨ r ≥ ECDSA.n ∨ s ≤ 0 ∨ s ≥ ECDSA.n := by
      rcases hr with h | h | h | h | h | h <;> omega
    have hie : derStr.isEmpty = false := by
      cases derStr with
      | nil => exact absurd rfl hdne
      | cons a t => rfl
    simp only [ECDSA.verify, hx, hy, jsTruthyStr, hie, Bool.false_eq_true,
      false_and, if_false, Option.getD_some, hder, Bool.not_false, if_true]
    rw [if_pos hcond]

/-- Witness for C3: concrete rejections.  RSA: `sv = 7 ≥ nv = 5`.  DSA:
`r = q = 5`.  ECDSA direct fields: `r = 0`.  ECDSA DER path: the encoding of
`(0, 1)` decodes back to `r = 0` and is rejected. -/
theorem claim_C3_witness :
    RSA.verify id none [] ⟨some ['7'], none, none, none, none⟩ ['5'] = false ∧
    (DSA.verify [] [] 1 [] (some 3) (some 5) (some 2) (some 1) (some 5)
      (some 1)).1 = false ∧
    (ECDSA.verify (fun _ => []) [] [] ⟨some ['0'], some ['1'], none⟩
      ['1'] ['1']).1 = false ∧
    (ECDSA.verify (fun _ => []) [] []
      ⟨none, none, some (ECDSA.derEncode 0 1)⟩ ['1'] ['1']).1 = false := by
  refine ⟨claim_C3.1 id none [] _ ['5'] ['7'] 5 7 (by decide) rfl (by decide)
      (by decide),
    claim_C3.2.1 [] [] 1 [] 3 5 2 1 5 1 (by decide),
    claim_C3.2.2.1 (fun _ => []) [] [] none ['1'] ['1'] 1 1 ['0'] ['1'] 0 1
      (by decide) (by decide) (by decide) (by decide) (by decide) (by decide)
      (by decide),
    claim_C3.2.2.2 (fun _ => []) [] [] (ECDSA.derEncode 0 1) ['1'] ['1'] 1 1 0 1
      (by decide) (by decide) rfl (by decide) (by decide)⟩

/-- **C4** (confirmed): the three verifiers are total Boolean functions — in
the embedding every throwing sub-computation is matched on and converted to
`false`, so no exception reaches the caller — and malformed inputs yield
`false`.  Conjuncts: RSA with an unparseable modulus, RSA with a missing
signature field; DSA with any missing key or signature component; ECDSA with
an unparseable public-key coordinate; ECDSA whose only signature field is a
DER string that fails to decode (for every key, parseable or not); ECDSA
with no signature fields at all. -/
theorem claim_C4 :
    (∀ hash lastSalt message (sig : RSA.SigObj) pubN,
        jsParseBigInt pubN = none →
        RSA.verify hash lastSalt message sig pubN = false) ∧
    (∀ hash lastSalt message (sig : RSA.SigObj) pubN, sig.signature = none →
        RSA.verify hash lastSalt message sig pubN = false) ∧
    (∀ message digest instq cache pkP pkQ pkG pkY rv sv,
        pkP = none ∨ pkQ = none ∨ pkG = none ∨ pkY = none ∨
          rv = none ∨ sv = none →
        (DSA.verify message digest instq cache pkP pkQ pkG pkY rv sv).1
          = false) ∧
    (∀ hash cache message (sig : ECDSA.SigObj) pubX pubY,
        jsParseHex pubX = none →
        (ECDSA.verify hash cache message sig pubX pubY).1 = false) ∧
    (∀ hash cache message derStr pubX pubY e,
        ECDSA.derDecode derStr = Except.error e →
        (ECDSA.verify hash cache message ⟨none, none, some derStr⟩
          pubX pubY).1 = false) ∧
    (∀ hash cache message pubX pubY,
        (ECDSA.verify hash cache message ⟨none, none, none⟩ pubX pubY).1
          = false) := by
  refine ⟨?rsaN, ?rsaSig, ?dsaMiss, ?ecKey, ?ecDer, ?ecEmpty⟩
  case rsaN =>
    intro hash lastSalt message sig pubN hpn
    simp only [RSA.verify, hpn]
  case rsaSig =>
    intro hash lastSalt message sig pubN hsig
    simp only [RSA.verify, hsig]
    cases jsParseBigInt pubN <;> rfl
  case dsaMiss =>
    intro message digest instq cache pkP pkQ pkG pkY rv sv h
    cases pkP <;> cases pkQ <;> cases pkG <;> cases pkY <;> cases rv <;>
      cases sv <;>
      first
        | rfl
        | (rcases h with h | h | h | h | h | h <;> exact Option.noConfusion h)
  case ecKey =>
    intro hash cache message sig pubX pubY hx
    simp only [ECDSA.verify, hx]
  case ecDer =>
    intro hash cache message derStr pubX pubY e hder
    cases hx : jsParseHex pubX with
    | none => simp only [ECDSA.verify, hx]
    | some Qx =>
      cases hy : jsParseHex pubY with
      | none => simp only [ECDSA.verify, hx, hy]
      | some Qy =>
        cases derStr with
        | nil => simp only [ECDSA.verify, hx, hy]; rfl
        | cons a t =>
          simp only [ECDSA.verify, hx, hy, jsTruthyStr, Bool.false_eq_true,
            false_and, if_false, List.isEmpty_cons, Bool.not_false, if_true,
            Option.getD_some, hder]
  case ecEmpty =>
    intro hash cache message pubX pubY
    cases hx : jsParseHex pubX with
    | none => simp only [ECDSA.verify, hx]
    | some Qx =>
      cases hy : jsParseHex pubY with
      | none => simp only [ECDSA.verify, hx, hy]
      | some Qy => simp only [ECDSA.verify, hx, hy]; rfl

/-- Witness for C4: the modulus string `"x"` does not parse; a signature
object with no `signature` field; a DSA call missing `s`; the public-key
coordinate `"z"` does not parse; the DER string `"01"` fails to decode; an
ECDSA signature object with no fields. -/
theorem claim_C4_witness :
    RSA.verify id none [] ⟨some ['1'], none, none, none, none⟩ ['x'] = false ∧
    RSA.verify id none [] ⟨none, none, none, none, none⟩ ['5'] = false ∧
    (DSA.verify [] [] 1 [] (some 3) (some 5) (some 2) (some 1) (some 1)
      none).1 = false ∧
    (ECDSA.verify (fun _ => []) [] [] ⟨none, none, none⟩ ['z'] ['1']).1
      = false ∧
    (ECDSA.verify (fun _ => []) [] [] ⟨none, none, some ['0', '1']⟩
      ['1'] ['1']).1 = false ∧
    (ECDSA.verify (fun _ => []) [] [] ⟨none, none, none⟩ ['1'] ['1']).1
      = false := by
  refine ⟨claim_C4.1 id none [] _ ['x'] (by decide),
    claim_C4.2.1 id none [] ⟨none, none, none, none, none⟩ ['5'] rfl,
    claim_C4.2.2.1 [] [] 1 [] (some 3) (some 5) (some 2) (some 1) (some 1)
      none (by simp),
    claim_C4.2.2.2.1 (fun _ => []) [] [] ⟨none, none, none⟩ ['z'] ['1']
      (by decide),
    claim_C4.2.2.2.2.1 (fun _ => []) [] [] ['0', '1'] ['1'] ['1'] () rfl,
    claim_C4.2.2.2.2.2 (fun _ => []) [] [] ['1'] ['1']⟩


theorem natBytesBEAux_acc (fuel : ℕ) :
    ∀ (n : ℕ) (acc : List ℕ),
      DSA.natBytesBEAux fuel n acc = DSA.natBytesBEAux fuel n [] ++ acc := by
  induction fuel with
  | zero => intro n acc; simp [DSA.natBytesBEAux]
  | succ f ih =>
    intro n acc
    match n with
    | 0 => simp [DSA.natBytesBEAux]
    | n + 1 =>
      rw [DSA.natBytesBEAux, DSA.natBytesBEAux, ih _ ((n + 1) % 256 :: acc),
        ih _ [(n + 1) % 256]]
      simp

theorem bytesToIntBE_from (xs : List ℕ) : ∀ a : ℤ,
    xs.foldl (fun (x : ℤ) (b : ℕ) => x * 256 + (b : ℤ)) a
      = a * 256 ^ xs.length + bytesToIntBE xs := by
  induction xs with
  | nil => intro a; simp [bytesToIntBE]
  | cons x xs ih =>
    intro a
    simp only [List.foldl_cons, List.length_cons]
    rw [ih (a * 256 + x)]
    have hx : bytesToIntBE (x :: xs)
        = List.foldl (fun (a : ℤ) (b : ℕ) => a * 256 + (b : ℤ)) ((0 : ℤ) * 256 + x) xs := rfl
    rw [hx, ih ((0 : ℤ) * 256 + x)]
    ring

theorem bytesToIntBE_cons (b : ℕ) (bs : List ℕ) :
    bytesToIntBE (b :: bs) = (b : ℤ) * 256 ^ bs.length + bytesToIntBE bs := by
  have h : bytesToIntBE (b :: bs)
      = List.foldl (fun (a : ℤ) (b : ℕ) => a * 256 + (b : ℤ)) ((0 : ℤ) * 256 + b) bs := rfl
  rw [h, bytesToIntBE_from]
  ring

theorem bytesToIntBE_cons_zero (bs : List ℕ) :
    bytesToIntBE (0 :: bs) = bytesToIntBE bs := by
  rw [bytesToIntBE_cons]
  simp

theorem bytesToIntBE_append_single (bs : List ℕ) (b : ℕ) :
    bytesToIntBE (bs ++ [b]) = 256 * bytesToIntBE bs + b := by
  simp [bytesToIntBE, List.foldl_append]
  ring

theorem bytesToIntBE_lt (bs : List ℕ) (h : ∀ b ∈ bs, b < 256) :
    bytesToIntBE bs < 256 ^ bs.length := by
  induction bs with
  | nil => simp [bytesToIntBE]
  | cons b t ih =>
    rw [bytesToIntBE_cons, List.length_cons]
    have hb : b < 256 := h b (List.mem_cons_self b t)
    have ht := ih (fun x hx => h x (List.mem_cons_of_mem _ hx))
    have hb1 : (b : ℤ) ≤ 255 := by exact_mod_cast Nat.lt_succ_iff.mp hb
    have hpow : (0 : ℤ) < 256 ^ t.length := by positivity
    have hmul : (b : ℤ) * 256 ^ t.length ≤ 255 * 256 ^ t.length :=
      mul_le_mul_of_nonneg_right hb1 hpow.le
    have hstep : (256 : ℤ) ^ (t.length + 1) = 256 * 256 ^ t.length := by
      rw [pow_succ]; ring
    rw [hstep]
    omega

theorem natBytesBEAux_zero (fuel : ℕ) : DSA.natBytesBEAux fuel 0 [] = [] := by
  cases fuel <;> simp [DSA.natBytesBEAux]

theorem natBytesBEAux_val :
    ∀ (fuel n : ℕ), n < 256 ^ fuel →
      bytesToIntBE (DSA.natBytesBEAux fuel n []) = (n : ℤ) := by
  intro fuel
  induction fuel with
  | zero =>
    intro n hn
    have h0 : n = 0 := by simpa using hn
    subst h0
    simp [DSA.natBytesBEAux, bytesToIntBE]
  | succ f ih =>
    intro n hn
    match n with
    | 0 => simp [DSA.natBytesBEAux, bytesToIntBE]
    | n + 1 =>
      rw [DSA.natBytesBEAux, natBytesBEAux_acc, bytesToIntBE_append_single, ih]
      · have hmod : (n + 1) % 256 + 256 * ((n + 1) / 256) = n + 1 := by omega
        push_cast
        omega
      · have hk : n + 1 < 256 * 256 ^ f := by rw [pow_succ] at hn; omega
        omega

theorem natBytesBE_val (n : ℕ) : bytesToIntBE (DSA.natBytesBE n) = (n : ℤ) := by
  unfold DSA.natBytesBE
  refine natBytesBEAux_val (n + 1) n ?_
  calc n < 2 ^ n := n.lt_two_pow
    _ ≤ 256 ^ n := Nat.pow_le_pow_left (by norm_num) n
    _ ≤ 256 ^ (n + 1) := Nat.pow_le_pow_right (by norm_num) (Nat.le_succ n)

theorem natBytesBEAux_bytes :
    ∀ (fuel n : ℕ), ∀ b ∈ DSA.natBytesBEAux fuel n [], b < 256 := by
  intro fuel
  induction fuel with
  | zero => intro n b hb; simp [DSA.natBytesBEAux] at hb
  | succ f ih =>
    intro n b hb
    match n with
    | 0 => simp [DSA.natBytesBEAux] at hb
    | n + 1 =>
      rw [DSA.natBytesBEAux, natBytesBEAux_acc] at hb
      rcases List.mem_append.mp hb with h | h
      · exact ih _ _ h
      · simp at h; omega

theorem natBytesBEAux_length_bounds :
    ∀ (fuel n : ℕ), 0 < n → n < 256 ^ fuel →
      256 ^ ((DSA.natBytesBEAux fuel n []).length - 1) ≤ n ∧
        n < 256 ^ (DSA.natBytesBEAux fuel n []).length ∧
        0 < (DSA.natBytesBEAux fuel n []).length := by
  intro fuel
  induction fuel with
  | zero => intro n h0 hn; simp at hn; omega
  | succ f ih =>
    intro n h0 hn
    obtain ⟨n, rfl⟩ : ∃ m, n = m + 1 := ⟨n - 1, by omega⟩
    rw [DSA.natBytesBEAux, natBytesBEAux_acc]
    have hk : n + 1 < 256 * 256 ^ f := by rw [pow_succ] at hn; omega
    rcases Nat.eq_zero_or_pos ((n + 1) / 256) with hz | hpos
    · have hsmall : n + 1 < 256 := by omega
      rw [hz, natBytesBEAux_zero]
      simp
      omega
    · have hdf : (n + 1) / 256 < 256 ^ f := by omega
      obtain ⟨hlo, hhi, hlen⟩ := ih ((n + 1) / 256) hpos hdf
      set L := (DSA.natBytesBEAux f ((n + 1) / 256) []).length with hL
      have e1 : (256 : ℕ) ^ L = 256 * 256 ^ (L - 1) := by
        rw [← pow_succ']
        congr 1
        omega
      have e2 : (256 : ℕ) ^ (L + 1) = 256 * 256 ^ L := by rw [pow_succ']
      have hlength :
          (DSA.natBytesBEAux f ((n + 1) / 256) [] ++ [(n + 1) % 256]).length
            = L + 1 := by
        simp [hL]
      rw [hlength]
      refine ⟨?_, ?_, by omega⟩
      · have hsub : L + 1 - 1 = L := by omega
        rw [hsub, e1]
        omega
      · rw [e2]
        omega

theorem natBytesBEAux_head :
    ∀ (fuel n : ℕ), 0 < n → n < 256 ^ fuel →
      ∃ h t, DSA.natBytesBEAux fuel n [] = h :: t ∧ 0 < h ∧ h < 256 := by
  intro fuel
  induction fuel with
  | zero => intro n h0 hn; simp at hn; omega
  | succ f ih =>
    intro n h0 hn
    obtain ⟨n, rfl⟩ : ∃ m, n = m + 1 := ⟨n - 1, by omega⟩
    rw [DSA.natBytesBEAux, natBytesBEAux_acc]
    have hk : n + 1 < 256 * 256 ^ f := by rw [pow_succ] at hn; omega
    rcases Nat.eq_zero_or_pos ((n + 1) / 256) with hz | hpos
    · have hsmall : n + 1 < 256 := by omega
      rw [hz, natBytesBEAux_zero]
      exact ⟨n + 1, [], by simpa using Nat.mod_eq_of_lt hsmall, by omega, hsmall⟩
    · have hdf : (n + 1) / 256 < 256 ^ f := by omega
      obtain ⟨h, t, he, hp, hlt⟩ := ih ((n + 1) / 256) hpos hdf
      exact ⟨h, t ++ [(n + 1) % 256], by rw [he]; simp, hp, hlt⟩

theorem natBytesBE_spec (n : ℕ) (h0 : 0 < n) :
    ∃ h t, DSA.natBytesBE n = h :: t ∧ 0 < h ∧ h < 256 := by
  unfold DSA.natBytesBE
  refine natBytesBEAux_head (n + 1) n h0 ?_
  calc n < 2 ^ n := n.lt_two_pow
    _ ≤ 256 ^ n := Nat.pow_le_pow_left (by norm_num) n
    _ ≤ 256 ^ (n + 1) := Nat.pow_le_pow_right (by norm_num) (Nat.le_succ n)

theorem natBytesBE_length_le (n : ℕ) (h0 : 0 < n) (hn : n < 2 ^ 256) :
    (DSA.natBytesBE n).length ≤ 32 := by
  have hb : n < 256 ^ (n + 1) := by
    calc n < 2 ^ n := n.lt_two_pow
      _ ≤ 256 ^ n := Nat.pow_le_pow_left (by norm_num) n
      _ ≤ 256 ^ (n + 1) := Nat.pow_le_pow_right (by norm_num) (Nat.le_succ n)
  obtain ⟨hlo, hhi, hpos⟩ := natBytesBEAux_length_bounds (n + 1) n h0 hb
  by_contra hgt
  have h33 : 33 ≤ (DSA.natBytesBEAux (n + 1) n []).length := by
    unfold DSA.natBytesBE at hgt
    omega
  have : (256 : ℕ) ^ 32 ≤ 256 ^ ((DSA.natBytesBEAux (n + 1) n []).length - 1) :=
    Nat.pow_le_pow_right (by norm_num) (by omega)
  have h256 : (256 : ℕ) ^ 32 = 2 ^ 256 := by norm_num
  omega


theorem hexByte_len2 : ∀ b : Fin 256, (padStart (natToHex b.val) 2 '0').length = 2 := by
  decide

theorem hexByte_roundtrip : ∀ b : Fin 256,
    hexPairsToBytes (padStart (natToHex b.val) 2 '0') = [b.val] := by
  decide

theorem bytesToHex_roundtrip (bs : List ℕ) (h : ∀ b ∈ bs, b < 256) :
    hexPairsToBytes (bytesToHex bs) = bs ∧ (bytesToHex bs).length % 2 = 0 := by
  induction bs with
  | nil => exact ⟨rfl, rfl⟩
  | cons b rest ih =>
    have hb : b < 256 := h b (List.mem_cons_self b rest)
    obtain ⟨ihp, ihl⟩ := ih (fun x hx => h x (List.mem_cons_of_mem _ hx))
    have hlen := hexByte_len2 ⟨b, hb⟩
    have hrt := hexByte_roundtrip ⟨b, hb⟩
    obtain ⟨c1, c2, hc⟩ := List.length_eq_two.mp hlen
    have hcons : bytesToHex (b :: rest) = c1 :: c2 :: bytesToHex rest := by
      show padStart (natToHex b) 2 '0' ++ bytesToHex rest = _
      rw [hc]
      rfl
    rw [hc] at hrt
    have hbyte : hexPairByte c1 c2 = b := by
      have : hexPairByte c1 c2 :: ([] : List ℕ) = [b] := hrt
      simpa using this
    constructor
    · rw [hcons]
      show hexPairByte c1 c2 :: hexPairsToBytes (bytesToHex rest) = b :: rest
      rw [hbyte, ihp]
    · rw [hcons]
      simp only [List.length_cons]
      omega

theorem getD_append_length (pre : List ℕ) (b : ℕ) (t : List ℕ) :
    (pre ++ b :: t).getD pre.length 0 = b := by
  induction pre with
  | nil => rfl
  | cons x xs ih => simpa using ih

theorem getq_append_length (pre : List ℕ) (b : ℕ) (t : List ℕ) :
    (pre ++ b :: t).get? pre.length = some b := by
  induction pre with
  | nil => rfl
  | cons x xs ih => simpa using ih

theorem foldl_slice (post : List ℕ) : ∀ (mid pre : List ℕ) (acc : ℤ),
    (List.range' pre.length mid.length).foldl
      (fun (a : ℤ) (i : ℕ) => a * 256 + ((pre ++ mid ++ post).getD i 0 : ℤ)) acc
      = mid.foldl (fun (a : ℤ) (b : ℕ) => a * 256 + (b : ℤ)) acc := by
  intro mid
  induction mid with
  | nil => intro pre acc; simp
  | cons b rest ih =>
    intro pre acc
    rw [List.length_cons, List.range'_succ, List.foldl_cons, List.foldl_cons]
    have h1 : (pre ++ (b :: rest) ++ post).getD pre.length 0 = b := by
      have he : pre ++ (b :: rest) ++ post = pre ++ b :: (rest ++ post) := by simp
      rw [he]
      exact getD_append_length pre b (rest ++ post)
    rw [h1]
    have h2 : pre ++ (b :: rest) ++ post = (pre ++ [b]) ++ rest ++ post := by simp
    have h3 : pre.length + 1 = (pre ++ [b]).length := by simp
    rw [h2, h3]
    exact ih (pre ++ [b]) _

theorem readBytesBE_slice (pre mid post : List ℕ) :
    ECDSA.readBytesBE (pre ++ mid ++ post) pre.length (pre.length + mid.length)
      = some (bytesToIntBE mid) := by
  unfold ECDSA.readBytesBE
  rw [if_pos]
  · have hsub : pre.length + mid.length - pre.length = mid.length := by omega
    rw [hsub, foldl_slice]
    rfl
  · left
    simp


theorem getD_past : ∀ (l : List ℕ) (n : ℕ), l.length ≤ n → l.getD n 0 = 0 := by
  intro l
  induction l with
  | nil => intro n _; cases n <;> rfl
  | cons x xs ih =>
    intro n hn
    match n with
    | 0 => simp at hn
    | n + 1 =>
      have : xs.length ≤ n := by simpa using hn
      simpa using ih n this

theorem land128 : ∀ b : Fin 256, 0 < Nat.land b.val 128 ↔ 128 ≤ b.val := by
  decide

theorem derReadInt (bytes pre D post : List ℕ)
    (hbytes : bytes = pre ++ D ++ post)
    (hD : D = [0] ∨ (∃ h t, D = h :: t ∧ 0 < h ∧ h < 128) ∨
        (∃ h t, D = 0 :: h :: t ∧ 128 ≤ h ∧ h < 256))
    (hpost : post = [] ∨ ∃ r2, post = 2 :: r2) :
    ECDSA.readBytesBE bytes
        (if bytes.get? pre.length = some 0 ∧
            0 < Nat.land (bytes.getD (pre.length + 1) 0) 128
          then pre.length + 1 else pre.length)
        (pre.length + D.length) = some (bytesToIntBE D) := by
  subst hbytes
  rcases hD with hD0 | ⟨h, t, hDe, hpos, hlt⟩ | ⟨h, t, hDe, hge, hlt⟩
  · subst hD0
    have hcond : ¬((pre ++ [0] ++ post).get? pre.length = some 0 ∧
        0 < Nat.land ((pre ++ [0] ++ post).getD (pre.length + 1) 0) 128) := by
      rintro ⟨-, h2⟩
      rcases hpost with rfl | ⟨r2, rfl⟩
      · have hd : (pre ++ [0] ++ ([] : List ℕ)).getD (pre.length + 1) 0 = 0 :=
          getD_past _ _ (by simp)
        rw [hd] at h2
        exact absurd h2 (by decide)
      · have hd : (pre ++ [0] ++ (2 :: r2)).getD (pre.length + 1) 0 = 2 := by
          have he2 : pre ++ [0] ++ (2 :: r2) = (pre ++ [0]) ++ 2 :: r2 := by simp
          have hl : (pre ++ [0]).length = pre.length + 1 := by simp
          rw [he2, ← hl]
          exact getD_append_length _ 2 r2
        rw [hd] at h2
        exact absurd h2 (by decide)
    rw [if_neg hcond]
    exact readBytesBE_slice pre [0] post
  · subst hDe
    have hcond : ¬((pre ++ (h :: t) ++ post).get? pre.length = some 0 ∧
        0 < Nat.land ((pre ++ (h :: t) ++ post).getD (pre.length + 1) 0) 128) := by
      rintro ⟨h1, -⟩
      have hq : (pre ++ (h :: t) ++ post).get? pre.length = some h := by
        have he : pre ++ (h :: t) ++ post = pre ++ h :: (t ++ post) := by simp
        rw [he]
        exact getq_append_length pre h (t ++ post)
      rw [hq] at h1
      have hh0 : h = 0 := by simpa using h1
      omega
    rw [if_neg hcond]
    exact readBytesBE_slice pre (h :: t) post
  · subst hDe
    have hq : (pre ++ (0 :: h :: t) ++ post).get? pre.length = some 0 := by
      have he : pre ++ (0 :: h :: t) ++ post = pre ++ 0 :: (h :: t ++ post) := by simp
      rw [he]
      exact getq_append_length pre 0 (h :: t ++ post)
    have hd5 : (pre ++ (0 :: h :: t) ++ post).getD (pre.length + 1) 0 = h := by
      have he : pre ++ (0 :: h :: t) ++ post = (pre ++ [0]) ++ h :: (t ++ post) := by
        simp
      have hl : (pre ++ [0]).length = pre.length + 1 := by simp
      rw [he, ← hl]
      exact getD_append_length _ h (t ++ post)
    have hland : 0 < Nat.land h 128 := (land128 ⟨h, hlt⟩).mpr hge
    rw [if_pos ⟨hq, by rw [hd5]; exact hland⟩]
    have he : pre ++ (0 :: h :: t) ++ post = (pre ++ [0]) ++ (h :: t) ++ post := by
      simp
    have hl : (pre ++ [0]).length = pre.length + 1 := by simp
    have hstop : pre.length + (0 :: h :: t).length
        = (pre ++ [0]).length + (h :: t).length := by
      simp only [List.length_cons, List.length_append, List.length_nil]
      omega
    rw [bytesToIntBE_cons_zero, he, hstop, ← hl]
    exact readBytesBE_slice (pre ++ [0]) (h :: t) post


theorem derDecode_encodePair (L : ℕ) (B C : List ℕ)
    (hBb : ∀ b ∈ B, b < 256) (hCb : ∀ b ∈ C, b < 256) (hL : L < 256)
    (hBlenByte : B.length < 256) (hClenByte : C.length < 256)
    (hBs : B = [0] ∨ (∃ h t, B = h :: t ∧ 0 < h ∧ h < 128) ∨
      (∃ h t, B = 0 :: h :: t ∧ 128 ≤ h ∧ h < 256))
    (hCs : C = [0] ∨ (∃ h t, C = h :: t ∧ 0 < h ∧ h < 128) ∨
      (∃ h t, C = 0 :: h :: t ∧ 128 ≤ h ∧ h < 256)) :
    ECDSA.derDecode
        (bytesToHex (48 :: L :: 2 :: B.length :: (B ++ 2 :: C.length :: C)))
      = Except.ok (bytesToIntBE B, bytesToIntBE C) := by
  set sig : List ℕ := 48 :: L :: 2 :: B.length :: (B ++ 2 :: C.length :: C)
    with hsigdef
  have hall : ∀ b ∈ sig, b < 256 := by
    rw [hsigdef]
    intro b hb
    rcases List.mem_cons.mp hb with rfl | hb
    · omega
    rcases List.mem_cons.mp hb with rfl | hb
    · omega
    rcases List.mem_cons.mp hb with rfl | hb
    · omega
    rcases List.mem_cons.mp hb with rfl | hb
    · exact hBlenByte
    rcases List.mem_append.mp hb with hb | hb
    · exact hBb b hb
    rcases List.mem_cons.mp hb with rfl | hb
    · omega
    rcases List.mem_cons.mp hb with rfl | hb
    · exact hClenByte
    · exact hCb b hb
  obtain ⟨hrt, hev⟩ := bytesToHex_roundtrip sig hall
  have hodd : ¬((bytesToHex sig).length % 2 ≠ 0) := fun hc => hc hev
  have h0 : sig.getD 0 0 = 48 := rfl
  have h2t : sig.getD 2 0 = 2 := rfl
  have h3 : sig.getD 3 0 = B.length := rfl
  have hsplit1 : sig = [48, L, 2, B.length] ++ B ++ (2 :: C.length :: C) := by
    rw [hsigdef]
    simp
  have hsplit2 : sig = ([48, L, 2, B.length] ++ B ++ [2, C.length]) ++ C ++ [] := by
    rw [hsigdef]
    simp
  have hIdx2 : sig.getD (4 + B.length) 0 = 2 := by
    have hl : ([48, L, 2, B.length] ++ B).length = 4 + B.length := by
      simp only [List.length_append, List.length_cons, List.length_nil]
      try omega
    have hsp : sig = ([48, L, 2, B.length] ++ B) ++ 2 :: (C.length :: C) := by
      rw [hsigdef]
      simp
    rw [hsp, ← hl]
    exact getD_append_length _ 2 _
  have hSL : sig.getD (4 + B.length + 1) 0 = C.length := by
    have hl : ([48, L, 2, B.length] ++ B ++ [2]).length = 4 + B.length + 1 := by
      simp only [List.length_append, List.length_cons, List.length_nil]
      try omega
    have hsp : sig = ([48, L, 2, B.length] ++ B ++ [2]) ++ C.length :: C := by
      rw [hsigdef]
      simp
    rw [hsp, ← hl]
    exact getD_append_length _ C.length C
  have hr := derReadInt sig [48, L, 2, B.length] B (2 :: C.length :: C) hsplit1 hBs
    (Or.inr ⟨C.length :: C, rfl⟩)
  have hp4 : ([48, L, 2, B.length] : List ℕ).length = 4 := rfl
  rw [hp4] at hr
  have h45 : (4 : ℕ) + 1 = 5 := rfl
  rw [h45] at hr
  have hs := derReadInt sig ([48, L, 2, B.length] ++ B ++ [2, C.length]) C []
    hsplit2 hCs (Or.inl rfl)
  have hps : ([48, L, 2, B.length] ++ B ++ [2, C.length]).length
      = 4 + B.length + 2 := by
    simp only [List.length_append, List.length_cons, List.length_nil]
    try omega
  rw [hps] at hs
  have e1 : 4 + B.length + 2 + 1 = 4 + B.length + 3 := by omega
  rw [e1] at hs
  unfold ECDSA.derDecode
  rw [if_neg hodd]
  simp only [hrt, h0, h2t, h3, hIdx2, hSL, hr, hs]
  norm_num


theorem encInt_spec (v : ℤ) (h0 : 0 ≤ v) (hv : v < 2 ^ 256) :
    ∃ B, (if 0 < Nat.land ((ECDSA.bigintToUint8Array v).getD 0 0) 128
            then 0 :: ECDSA.bigintToUint8Array v
          else ECDSA.bigintToUint8Array v) = B ∧
      bytesToIntBE B = v ∧ (∀ b ∈ B, b < 256) ∧ B.length ≤ 33 ∧
      (B = [0] ∨ (∃ h t, B = h :: t ∧ 0 < h ∧ h < 128) ∨
        (∃ h t, B = 0 :: h :: t ∧ 128 ≤ h ∧ h < 256)) := by
  rcases eq_or_lt_of_le h0 with hz | hpos
  · refine ⟨[0], ?_, ?_, ?_, ?_, Or.inl rfl⟩
    · rw [← hz]
      rfl
    · rw [← hz]
      decide
    · intro b hb
      simp at hb
      omega
    · simp
  · have hraw : ECDSA.bigintToUint8Array v = DSA.natBytesBE v.toNat := by
      unfold ECDSA.bigintToUint8Array
      rw [if_neg (by omega), if_neg (by omega)]
    have htn : 0 < v.toNat := by omega
    have htn2 : v.toNat < 2 ^ 256 := by
      have h256 : ((2 : ℤ) ^ 256) = ((2 ^ 256 : ℕ) : ℤ) := by
        push_cast
        try ring
      omega
    obtain ⟨h, t, hht, hhp, hh256⟩ := natBytesBE_spec v.toNat htn
    have hval : bytesToIntBE (DSA.natBytesBE v.toNat) = v := by
      rw [natBytesBE_val]
      omega
    have hbytes : ∀ b ∈ DSA.natBytesBE v.toNat, b < 256 :=
      fun b hb => natBytesBEAux_bytes _ _ b hb
    have hlen : (DSA.natBytesBE v.toNat).length ≤ 32 :=
      natBytesBE_length_le v.toNat htn htn2
    have hgd : (ECDSA.bigintToUint8Array v).getD 0 0 = h := by
      rw [hraw, hht]
      rfl
    rcases Nat.lt_or_ge h 128 with hsmall | hbig
    · refine ⟨h :: t, ?_, ?_, ?_, ?_, Or.inr (Or.inl ⟨h, t, rfl, hhp, hsmall⟩)⟩
      · rw [hgd, if_neg, hraw, hht]
        intro hl
        have h128 : 128 ≤ h := (land128 ⟨h, hh256⟩).mp hl
        omega
      · rw [← hht]
        exact hval
      · rw [← hht]
        exact hbytes
      · have hle : (h :: t).length ≤ 32 := hht ▸ hlen
        omega
    · refine ⟨0 :: h :: t, ?_, ?_, ?_, ?_,
        Or.inr (Or.inr ⟨h, t, rfl, hbig, hh256⟩)⟩
      · rw [hgd, if_pos ((land128 ⟨h, hh256⟩).mpr hbig), hraw, hht]
      · rw [bytesToIntBE_cons_zero, ← hht]
        exact hval
      · intro b hb
        rcases List.mem_cons.mp hb with rfl | hb
        · omega
        · rw [← hht] at hb
          exact hbytes b hb
      · have hle : (h :: t).length ≤ 32 := hht ▸ hlen
        simp only [List.length_cons] at hle ⊢
        omega

/-- **C6**: the DER round-trip holds for all `0 ≤ r, s < 2^256`, including
values needing the leading-zero padding rule (top byte ≥ 0x80) and the
single-zero-byte encoding of 0. -/
theorem claim_C6 (r s : ℤ) (hr0 : 0 ≤ r) (hr : r < 2 ^ 256)
    (hs0 : 0 ≤ s) (hs : s < 2 ^ 256) :
    ECDSA.derDecode (ECDSA.derEncode r s) = Except.ok (r, s) := by
  obtain ⟨B, hBdef, hBval, hBb, hBlen, hBs⟩ := encInt_spec r hr0 hr
  obtain ⟨C, hCdef, hCval, hCb, hClen, hCs⟩ := encInt_spec s hs0 hs
  simp only [ECDSA.derEncode]
  rw [hBdef, hCdef]
  have hlB : B.length % 256 = B.length := Nat.mod_eq_of_lt (by omega)
  have hlC : C.length % 256 = C.length := Nat.mod_eq_of_lt (by omega)
  have hstep : ((2 :: B.length % 256 :: B) ++ (2 :: C.length % 256 :: C))
      = 2 :: B.length :: (B ++ 2 :: C.length :: C) := by
    rw [hlB, hlC]
    simp
  have htot : ((2 :: B.length % 256 :: B).length
        + (2 :: C.length % 256 :: C).length) % 256
      = (2 :: B.length % 256 :: B).length + (2 :: C.length % 256 :: C).length := by
    refine Nat.mod_eq_of_lt ?_
    simp only [List.length_cons]
    omega
  rw [htot, hstep]
  refine (derDecode_encodePair _ B C hBb hCb ?_ (by omega) (by omega) hBs hCs).trans ?_
  · simp only [List.length_cons]
    omega
  · rw [hBval, hCval]

/-- Witness for C6 at boundary values: `r = 2^256 - 1` (top byte `0xFF`,
forcing the zero-padding rule) with `s = 0` (the single-zero-byte encoding),
and `r = 1` with `s = 2^255` (top byte `0x80`). -/
theorem claim_C6_witness :
    ECDSA.derDecode (ECDSA.derEncode (2 ^ 256 - 1) 0)
        = Except.ok (2 ^ 256 - 1, 0) ∧
    ECDSA.derDecode (ECDSA.derEncode 1 (2 ^ 255)) = Except.ok (1, 2 ^ 255) := by
  exact ⟨claim_C6 (2 ^ 256 - 1) 0 (by norm_num) (by norm_num) (by norm_num)
      (by norm_num),
    claim_C6 1 (2 ^ 255) (by norm_num) (by norm_num) (by norm_num) (by norm_num)⟩


theorem natToDecAux_acc (fuel : ℕ) :
    ∀ (n : ℕ) (acc : List Char),
      natToDecAux fuel n acc = natToDecAux fuel n [] ++ acc := by
  induction fuel with
  | zero => intro n acc; simp [natToDecAux]
  | succ f ih =>
    intro n acc
    match n with
    | 0 => simp [natToDecAux]
    | n + 1 =>
      rw [natToDecAux, natToDecAux, ih _ (decDigitChar ((n + 1) % 10) :: acc),
        ih _ [decDigitChar ((n + 1) % 10)]]
      simp

theorem decVal_append_single (s : List Char) (c : Char) :
    decVal (s ++ [c]) = 10 * decVal s + (c.toNat - 48) := by
  simp [decVal, List.foldl_append]

theorem decDigitChar_toNat (d : ℕ) (hd : d < 10) :
    (decDigitChar d).toNat = 48 + d := by
  unfold decDigitChar
  exact charToNat_ofNat _ (by omega)

theorem natToDecAux_zero (fuel : ℕ) : natToDecAux fuel 0 [] = [] := by
  cases fuel <;> simp [natToDecAux]

theorem natToDecAux_val :
    ∀ (fuel n : ℕ), n < 10 ^ fuel → decVal (natToDecAux fuel n []) = n := by
  intro fuel
  induction fuel with
  | zero =>
    intro n hn
    have h0 : n = 0 := by simpa using hn
    subst h0
    simp [natToDecAux, decVal]
  | succ f ih =>
    intro n hn
    match n with
    | 0 => simp [natToDecAux, decVal]
    | n + 1 =>
      rw [natToDecAux, natToDecAux_acc, decVal_append_single, ih]
      · rw [decDigitChar_toNat _ (Nat.mod_lt _ (by norm_num))]
        omega
      · have hk : n + 1 < 10 * 10 ^ f := by rw [pow_succ] at hn; omega
        omega

theorem natToDec_val (n : ℕ) : decVal (natToDec n) = n := by
  unfold natToDec
  split
  · rename_i h
    subst h
    decide
  · refine natToDecAux_val (n + 1) n ?_
    calc n < 2 ^ n := n.lt_two_pow
      _ ≤ 10 ^ n := Nat.pow_le_pow_left (by norm_num) n
      _ ≤ 10 ^ (n + 1) := Nat.pow_le_pow_right (by norm_num) (Nat.le_succ n)

theorem natToDec_inj (a b : ℕ) (h : natToDec a = natToDec b) : a = b := by
  have := congrArg decVal h
  rwa [natToDec_val, natToDec_val] at this

theorem natToDecAux_digits :
    ∀ (fuel n : ℕ), ∀ c ∈ natToDecAux fuel n [], 48 ≤ c.toNat ∧ c.toNat ≤ 57 := by
  intro fuel
  induction fuel with
  | zero => intro n c hc; simp [natToDecAux] at hc
  | succ f ih =>
    intro n c hc
    match n with
    | 0 => simp [natToDecAux] at hc
    | n + 1 =>
      rw [natToDecAux, natToDecAux_acc] at hc
      rcases List.mem_append.mp hc with h | h
      · exact ih _ _ h
      · simp at h
        subst h
        rw [decDigitChar_toNat _ (Nat.mod_lt _ (by norm_num))]
        omega

theorem natToDec_digits (n : ℕ) :
    ∀ c ∈ natToDec n, 48 ≤ c.toNat ∧ c.toNat ≤ 57 := by
  intro c hc
  unfold natToDec at hc
  split at hc
  · simp at hc
    subst hc
    decide
  · exact natToDecAux_digits _ _ c hc

theorem natToDec_ne_nil (n : ℕ) : natToDec n ≠ [] := by
  unfold natToDec
  split
  · simp
  · rename_i hn0
    obtain ⟨m, rfl⟩ : ∃ m, n = m + 1 := ⟨n - 1, by omega⟩
    rw [natToDecAux, natToDecAux_acc]
    simp

theorem underscore_not_mem_intToDec (x : ℤ) : '_' ∉ intToDec x := by
  intro hm
  unfold intToDec at hm
  split at hm
  · rcases List.mem_cons.mp hm with h | h
    · exact absurd h (by decide)
    · have := natToDec_digits _ _ h
      revert this
      decide
  · have := natToDec_digits _ _ hm
    revert this
    decide

theorem intToDec_inj (a b : ℤ) (h : intToDec a = intToDec b) : a = b := by
  unfold intToDec at h
  split at h <;> split at h
  · rename_i ha hb
    have htail : natToDec a.natAbs = natToDec b.natAbs := by
      injection h
    have := natToDec_inj _ _ htail
    omega
  · rename_i ha hb
    have hm : '-' ∈ natToDec b.toNat := by
      rw [← h]
      exact List.mem_cons_self _ _
    exact absurd (natToDec_digits b.toNat '-' hm) (by decide)
  · rename_i ha hb
    have hm : '-' ∈ natToDec a.toNat := by
      rw [h]
      exact List.mem_cons_self _ _
    exact absurd (natToDec_digits a.toNat '-' hm) (by decide)
  · rename_i ha hb
    have := natToDec_inj _ _ h
    omega

theorem splitUnderscore :
    ∀ (xs xs' ys ys' : List Char), '_' ∉ xs → '_' ∉ xs' →
      xs ++ '_' :: ys = xs' ++ '_' :: ys' → xs = xs' ∧ ys = ys' := by
  intro xs
  induction xs with
  | nil =>
    intro xs' ys ys' _ hx2 he
    cases xs' with
    | nil =>
      simp only [List.nil_append] at he
      injection he with h1 h2
      exact ⟨rfl, h2⟩
    | cons b t =>
      simp only [List.nil_append, List.cons_append] at he
      injection he with h1 h2
      refine absurd ?_ hx2
      rw [h1]
      exact List.mem_cons_self b t
  | cons a t ih =>
    intro xs' ys ys' hx1 hx2 he
    cases xs' with
    | nil =>
      simp only [List.cons_append, List.nil_append] at he
      injection he with h1 h2
      refine absurd ?_ hx1
      rw [← h1]
      exact List.mem_cons_self a t
    | cons b t' =>
      simp only [List.cons_append] at he
      injection he with h1 h2
      have hx1t : '_' ∉ t := fun hm => hx1 (List.mem_cons_of_mem a hm)
      have hx2t : '_' ∉ t' := fun hm => hx2 (List.mem_cons_of_mem b hm)
      obtain ⟨he1, he2⟩ := ih t' ys ys' hx1t hx2t h2
      exact ⟨by rw [h1, he1], he2⟩

theorem invKey_inj (a m b w : ℤ) (h : ECDSA.invKey a m = ECDSA.invKey b w) :
    a = b ∧ m = w := by
  unfold ECDSA.invKey at h
  obtain ⟨h1, h2⟩ := splitUnderscore _ _ _ _
    (underscore_not_mem_intToDec a) (underscore_not_mem_intToDec b) h
  exact ⟨intToDec_inj _ _ h1, intToDec_inj _ _ h2⟩


theorem getCachedModInverse_val (c : List (List Char × ℤ))
    (hc : ECDSA.InvCacheOK c) (a m : ℤ) :
    (ECDSA.getCachedModInverse c a m).map Prod.fst = ECDSA.modInverse a m := by
  unfold ECDSA.getCachedModInverse
  cases hfind : DSA.assocFind (ECDSA.invKey a m) c with
  | some v =>
    simp only [Except.map]
    exact (hc a m v hfind).symm
  | none =>
    cases hmi : ECDSA.modInverse a m with
    | ok r => simp [Except.map]
    | error e => simp [Except.map]

theorem getCachedModInverse_preserves (c : List (List Char × ℤ))
    (hc : ECDSA.InvCacheOK c) (a m v : ℤ) (c1 : List (List Char × ℤ))
    (hok : ECDSA.getCachedModInverse c a m = Except.ok (v, c1)) :
    ECDSA.InvCacheOK c1 := by
  unfold ECDSA.getCachedModInverse at hok
  cases hfind : DSA.assocFind (ECDSA.invKey a m) c with
  | some w =>
    rw [hfind] at hok
    simp only [Except.ok.injEq, Prod.mk.injEq] at hok
    rw [← hok.2]
    exact hc
  | none =>
    rw [hfind] at hok
    cases hmi : ECDSA.modInverse a m with
    | error e => rw [hmi] at hok; simp at hok
    | ok r =>
      rw [hmi] at hok
      simp only [Except.ok.injEq, Prod.mk.injEq] at hok
      rw [← hok.2]
      intro b w v2 hfind2
      rw [DSA.assocFind] at hfind2
      by_cases hkey : ECDSA.invKey a m = ECDSA.invKey b w
      · rw [if_pos hkey] at hfind2
        obtain ⟨rfl, rfl⟩ := invKey_inj a m b w hkey
        rw [hmi]
        simp only [Option.some.injEq] at hfind2
        rw [← hfind2]
      · rw [if_neg hkey] at hfind2
        exact hc b w v2 hfind2

theorem invCacheOK_nil : ECDSA.InvCacheOK [] := by
  intro a m v hfind
  simp [DSA.assocFind] at hfind

theorem jacobianToAffine_val (c c' : List (List Char × ℤ))
    (hc : ECDSA.InvCacheOK c) (hc' : ECDSA.InvCacheOK c')
    (P : ECDSA.JacobianPoint) :
    (ECDSA.jacobianToAffine c P).map Prod.fst
      = (ECDSA.jacobianToAffine c' P).map Prod.fst := by
  unfold ECDSA.jacobianToAffine
  by_cases hz : P.z = 0
  · rw [if_pos hz, if_pos hz]
    rfl
  · rw [if_neg hz, if_neg hz]
    have h1 := getCachedModInverse_val c hc P.z ECDSA.p
    have h2 := getCachedModInverse_val c' hc' P.z ECDSA.p
    cases hg1 : ECDSA.getCachedModInverse c P.z ECDSA.p with
    | error e =>
      cases hg2 : ECDSA.getCachedModInverse c' P.z ECDSA.p with
      | error e2 => cases e; cases e2; rfl
      | ok pr2 =>
        rw [hg1] at h1
        rw [hg2] at h2
        rw [← h2] at h1
        simp [Except.map] at h1
    | ok pr1 =>
      cases hg2 : ECDSA.getCachedModInverse c' P.z ECDSA.p with
      | error e2 =>
        rw [hg1] at h1
        rw [hg2] at h2
        rw [← h2] at h1
        simp [Except.map] at h1
      | ok pr2 =>
        rw [hg1] at h1
        rw [hg2] at h2
        rw [← h2] at h1
        obtain ⟨z1, cc1⟩ := pr1
        obtain ⟨z2, cc2⟩ := pr2
        simp only [Except.map, Except.ok.injEq] at h1
        simp only [Except.map]
        rw [h1]

theorem jacobianToAffine_preserves (c : List (List Char × ℤ))
    (hc : ECDSA.InvCacheOK c) (P : ECDSA.JacobianPoint)
    (pt : ECDSA.Point) (c1 : List (List Char × ℤ))
    (hok : ECDSA.jacobianToAffine c P = Except.ok (pt, c1)) :
    ECDSA.InvCacheOK c1 := by
  unfold ECDSA.jacobianToAffine at hok
  by_cases hz : P.z = 0
  · rw [if_pos hz] at hok
    simp only [Except.ok.injEq, Prod.mk.injEq] at hok
    rw [← hok.2]
    exact hc
  · rw [if_neg hz] at hok
    cases hg : ECDSA.getCachedModInverse c P.z ECDSA.p with
    | error e => rw [hg] at hok; simp at hok
    | ok pr =>
      obtain ⟨zInv, cc1⟩ := pr
      rw [hg] at hok
      simp only [Except.ok.injEq, Prod.mk.injEq] at hok
      rw [← hok.2]
      exact getCachedModInverse_preserves c hc P.z ECDSA.p zInv cc1 hg

theorem pointMultiplyOptimized_val (c c' : List (List Char × ℤ))
    (hc : ECDSA.InvCacheOK c) (hc' : ECDSA.InvCacheOK c')
    (P : ECDSA.Point) (k : ℤ) :
    (ECDSA.pointMultiplyOptimized c P k).map Prod.fst
      = (ECDSA.pointMultiplyOptimized c' P k).map Prod.fst := by
  unfold ECDSA.pointMultiplyOptimized
  by_cases h0 : k = 0
  · rw [if_pos h0, if_pos h0]
    rfl
  · rw [if_neg h0, if_neg h0]
    by_cases h1 : k = 1
    · rw [if_pos h1, if_pos h1]
      rfl
    · rw [if_neg h1, if_neg h1]
      exact jacobianToAffine_val c c' hc hc' _

theorem pointMultiplyOptimized_preserves (c : List (List Char × ℤ))
    (hc : ECDSA.InvCacheOK c) (P : ECDSA.Point) (k : ℤ)
    (pt : ECDSA.Point) (c1 : List (List Char × ℤ))
    (hok : ECDSA.pointMultiplyOptimized c P k = Except.ok (pt, c1)) :
    ECDSA.InvCacheOK c1 := by
  unfold ECDSA.pointMultiplyOptimized at hok
  by_cases h0 : k = 0
  · rw [if_pos h0] at hok
    simp only [Except.ok.injEq, Prod.mk.injEq] at hok
    rw [← hok.2]
    exact hc
  · rw [if_neg h0] at hok
    by_cases h1 : k = 1
    · rw [if_pos h1] at hok
      simp only [Except.ok.injEq, Prod.mk.injEq] at hok
      rw [← hok.2]
      exact hc
    · rw [if_neg h1] at hok
      exact jacobianToAffine_preserves c hc _ pt c1 hok


theorem signAux_val (hash : List Char → List Char)
    (hmac : List ℕ → List ℕ → List ℕ) (message dHex : List Char) (kFuel : ℕ) :
    ∀ (fuel : ℕ) (c c' : List (List Char × ℤ)),
      ECDSA.InvCacheOK c → ECDSA.InvCacheOK c' →
      (ECDSA.signAux hash hmac message dHex kFuel fuel c).val
        = (ECDSA.signAux hash hmac message dHex kFuel fuel c').val := by
  intro fuel
  induction fuel with
  | zero => intro c c' _ _; rfl
  | succ f ih =>
    intro c c' hc hc'
    simp only [ECDSA.signAux]
    cases hdp : jsParseHex dHex with
    | none => rfl
    | some d =>
      dsimp only
      cases he : ECDSA.hashToInt (hash message) ECDSA.n with
      | error e0 => rfl
      | ok e =>
        dsimp only
        cases hk : ECDSA.generateDeterministicK hmac d e kFuel with
        | none => rfl
        | some k =>
          dsimp only
          have hpm := pointMultiplyOptimized_val c c' hc hc' ⟨ECDSA.Gx, ECDSA.Gy⟩ k
          cases hp1 : ECDSA.pointMultiplyOptimized c ⟨ECDSA.Gx, ECDSA.Gy⟩ k with
          | error e1 =>
            cases hp2 : ECDSA.pointMultiplyOptimized c' ⟨ECDSA.Gx, ECDSA.Gy⟩ k with
            | error e2 => rfl
            | ok pr2 =>
              exfalso
              rw [hp1, hp2] at hpm
              simp [Except.map] at hpm
          | ok pr1 =>
            cases hp2 : ECDSA.pointMultiplyOptimized c' ⟨ECDSA.Gx, ECDSA.Gy⟩ k with
            | error e2 =>
              exfalso
              rw [hp1, hp2] at hpm
              simp [Except.map] at hpm
            | ok pr2 =>
              obtain ⟨kG1, c1⟩ := pr1
              obtain ⟨kG2, c1x⟩ := pr2
              dsimp only
              rw [hp1, hp2] at hpm
              simp only [Except.map, Except.ok.injEq] at hpm
              subst hpm
              have hc1 : ECDSA.InvCacheOK c1 :=
                pointMultiplyOptimized_preserves c hc _ k kG1 c1 hp1
              have hc1x : ECDSA.InvCacheOK c1x :=
                pointMultiplyOptimized_preserves c' hc' _ k kG1 c1x hp2
              by_cases hr : jsRem kG1.x ECDSA.n = 0
              · rw [if_pos hr, if_pos hr]
                exact ih c1 c1x hc1 hc1x
              · rw [if_neg hr, if_neg hr]
                have hgv := getCachedModInverse_val c1 hc1 k ECDSA.n
                have hgv2 := getCachedModInverse_val c1x hc1x k ECDSA.n
                rw [← hgv2] at hgv
                cases hg1 : ECDSA.getCachedModInverse c1 k ECDSA.n with
                | error e1 =>
                  cases hg2 : ECDSA.getCachedModInverse c1x k ECDSA.n with
                  | error e2 => rfl
                  | ok qr2 =>
                    exfalso
                    rw [hg1, hg2] at hgv
                    simp [Except.map] at hgv
                | ok qr1 =>
                  cases hg2 : ECDSA.getCachedModInverse c1x k ECDSA.n with
                  | error e2 =>
                    exfalso
                    rw [hg1, hg2] at hgv
                    simp [Except.map] at hgv
                  | ok qr2 =>
                    obtain ⟨kInv1, c2⟩ := qr1
                    obtain ⟨kInv2, c2x⟩ := qr2
                    dsimp only
                    rw [hg1, hg2] at hgv
                    simp only [Except.map, Except.ok.injEq] at hgv
                    subst hgv
                    have hc2 : ECDSA.InvCacheOK c2 :=
                      getCachedModInverse_preserves c1 hc1 k ECDSA.n kInv1 c2 hg1
                    have hc2x : ECDSA.InvCacheOK c2x :=
                      getCachedModInverse_preserves c1x hc1x k ECDSA.n kInv1 c2x hg2
                    by_cases hs : jsRem (kInv1 * jsRem (e + jsRem kG1.x ECDSA.n * d)
                        ECDSA.n) ECDSA.n = 0
                    · rw [if_pos hs, if_pos hs]
                      exact ih c2 c2x hc2 hc2x
                    · rw [if_neg hs, if_neg hs]
                      rfl

theorem signAux_preserves (hash : List Char → List Char)
    (hmac : List ℕ → List ℕ → List ℕ) (message dHex : List Char) (kFuel : ℕ) :
    ∀ (fuel : ℕ) (c : List (List Char × ℤ)), ECDSA.InvCacheOK c →
      ∀ (res : ECDSA.SigResult) (c2 : List (List Char × ℤ)),
        (ECDSA.signAux hash hmac message dHex kFuel fuel c
            = ECDSA.SignOutcome.done res c2 ∨
          ECDSA.signAux hash hmac message dHex kFuel fuel c
            = ECDSA.SignOutcome.thrown c2) →
        ECDSA.InvCacheOK c2 := by
  intro fuel
  induction fuel with
  | zero =>
    intro c hc res c2 hout
    simp only [ECDSA.signAux] at hout
    rcases hout with h | h <;> exact absurd h (by simp)
  | succ f ih =>
    intro c hc res c2 hout
    simp only [ECDSA.signAux] at hout
    cases hdp : jsParseHex dHex with
    | none =>
      rw [hdp] at hout
      dsimp only at hout
      rcases hout with h | h
      · exact absurd h (by simp)
      · obtain rfl : c = c2 := by
          injection h
        exact hc
    | some d =>
      rw [hdp] at hout
      dsimp only at hout
      cases he : ECDSA.hashToInt (hash message) ECDSA.n with
      | error e0 =>
        rw [he] at hout
        dsimp only at hout
        rcases hout with h | h
        · exact absurd h (by simp)
        · obtain rfl : c = c2 := by
            injection h
          exact hc
      | ok e =>
        rw [he] at hout
        dsimp only at hout
        cases hk : ECDSA.generateDeterministicK hmac d e kFuel with
        | none =>
          rw [hk] at hout
          dsimp only at hout
          rcases hout with h | h <;> exact absurd h (by simp)
        | some k =>
          rw [hk] at hout
          dsimp only at hout
          cases hp1 : ECDSA.pointMultiplyOptimized c ⟨ECDSA.Gx, ECDSA.Gy⟩ k with
          | error e1 =>
            rw [hp1] at hout
            dsimp only at hout
            rcases hout with h | h
            · exact absurd h (by simp)
            · obtain rfl : c = c2 := by
                injection h
              exact hc
          | ok pr1 =>
            obtain ⟨kG1, c1⟩ := pr1
            rw [hp1] at hout
            dsimp only at hout
            have hc1 : ECDSA.InvCacheOK c1 :=
              pointMultiplyOptimized_preserves c hc _ k kG1 c1 hp1
            by_cases hr : jsRem kG1.x ECDSA.n = 0
            · rw [if_pos hr] at hout
              exact ih c1 hc1 res c2 hout
            · rw [if_neg hr] at hout
              cases hg1 : ECDSA.getCachedModInverse c1 k ECDSA.n with
              | error e1 =>
                rw [hg1] at hout
                dsimp only at hout
                rcases hout with h | h
                · exact absurd h (by simp)
                · obtain rfl : c1 = c2 := by
                    injection h
                  exact hc1
              | ok qr1 =>
                obtain ⟨kInv1, c2a⟩ := qr1
                rw [hg1] at hout
                dsimp only at hout
                have hc2a : ECDSA.InvCacheOK c2a :=
                  getCachedModInverse_preserves c1 hc1 k ECDSA.n kInv1 c2a hg1
                by_cases hs : jsRem (kInv1 * jsRem (e + jsRem kG1.x ECDSA.n * d)
                    ECDSA.n) ECDSA.n = 0
                · rw [if_pos hs] at hout
                  exact ih c2a hc2a res c2 hout
                · rw [if_neg hs] at hout
                  rcases hout with h | h
                  · obtain rfl : c2a = c2 := by
                      injection h
                    exact hc2a
                  · exact absurd h (by simp)

theorem sign_val (hash : List Char → List Char)
    (hmac : List ℕ → List ℕ → List ℕ) (message dHex : List Char)
    (kFuel fuel : ℕ) (c c' : List (List Char × ℤ))
    (hc : ECDSA.InvCacheOK c) (hc' : ECDSA.InvCacheOK c') :
    (ECDSA.sign hash hmac message dHex kFuel fuel c).map Prod.fst
      = (ECDSA.sign hash hmac message dHex kFuel fuel c').map Prod.fst := by
  unfold ECDSA.sign
  have hv := signAux_val hash hmac message dHex kFuel fuel c c' hc hc'
  cases h1 : ECDSA.signAux hash hmac message dHex kFuel fuel c with
  | done res1 d1 =>
    cases h2 : ECDSA.signAux hash hmac message dHex kFuel fuel c' with
    | done res2 d2 =>
      rw [h1, h2] at hv
      simp only [ECDSA.SignOutcome.val, Option.some.injEq] at hv
      rw [hv]
      rfl
    | thrown d2 =>
      exfalso
      rw [h1, h2] at hv
      simp [ECDSA.SignOutcome.val] at hv
    | spin =>
      exfalso
      rw [h1, h2] at hv
      simp [ECDSA.SignOutcome.val] at hv
  | thrown d1 =>
    cases h2 : ECDSA.signAux hash hmac message dHex kFuel fuel c' with
    | done res2 d2 =>
      exfalso
      rw [h1, h2] at hv
      simp [ECDSA.SignOutcome.val] at hv
    | thrown d2 => rfl
    | spin =>
      exfalso
      rw [h1, h2] at hv
      simp [ECDSA.SignOutcome.val] at hv
  | spin =>
    cases h2 : ECDSA.signAux hash hmac message dHex kFuel fuel c' with
    | done res2 d2 =>
      exfalso
      rw [h1, h2] at hv
      simp [ECDSA.SignOutcome.val] at hv
    | thrown d2 =>
      exfalso
      rw [h1, h2] at hv
      simp [ECDSA.SignOutcome.val] at hv
    | spin => rfl

theorem sign_preserves (hash : List Char → List Char)
    (hmac : List ℕ → List ℕ → List ℕ) (message dHex : List Char)
    (kFuel fuel : ℕ) (c : List (List Char × ℤ)) (hc : ECDSA.InvCacheOK c)
    (res : ECDSA.SigResult) (c2 : List (List Char × ℤ))
    (hok : ECDSA.sign hash hmac message dHex kFuel fuel c = some (res, c2)) :
    ECDSA.InvCacheOK c2 := by
  unfold ECDSA.sign at hok
  cases h1 : ECDSA.signAux hash hmac message dHex kFuel fuel c with
  | done res1 d1 =>
    rw [h1] at hok
    simp only [Option.some.injEq, Prod.mk.injEq] at hok
    rw [← hok.2]
    exact signAux_preserves hash hmac message dHex kFuel fuel c hc res1 d1
      (Or.inl h1)
  | thrown d1 =>
    rw [h1] at hok
    simp only [Option.some.injEq, Prod.mk.injEq] at hok
    rw [← hok.2]
    exact signAux_preserves hash hmac message dHex kFuel fuel c hc
      ⟨[], List.replicate 64 '0', List.replicate 64 '0', []⟩ d1 (Or.inr h1)
  | spin =>
    rw [h1] at hok
    simp at hok


theorem dsaGenKLoop_fresh (H : List ℕ → List ℕ) (q : ℤ) :
    ∀ (fuel : ℕ) (k v t : List ℕ) (used : List (List Char)) (kk : ℤ)
      (used2 : List (List Char)),
      DSA.genKLoop H q fuel k v t used = some (kk, used2) →
      intToDec kk ∉ used ∧ used2 = intToDec kk :: used := by
  intro fuel
  induction fuel with
  | zero =>
    intro k v t used kk used2 hk
    exact absurd hk (by simp [DSA.genKLoop])
  | succ f ih =>
    intro k v t used kk used2 hk
    simp only [DSA.genKLoop] at hk
    split at hk
    · split at hk
      · exact ih _ _ _ _ _ _ hk
      · rename_i hnotmem
        simp only [Option.some.injEq, Prod.mk.injEq] at hk
        obtain ⟨rfl, rfl⟩ := hk
        exact ⟨hnotmem, rfl⟩
    · exact ih _ _ _ _ _ _ hk

theorem dsaGenerateDeterministicK_fresh (H : List ℕ → List ℕ) (q : ℤ)
    (used : List (List Char)) (x h : ℤ) (fuel : ℕ) (k : ℤ)
    (used2 : List (List Char))
    (hk : DSA.generateDeterministicK H q used x h fuel = some (k, used2)) :
    intToDec k ∉ used ∧ used2 = intToDec k :: used := by
  unfold DSA.generateDeterministicK at hk
  cases hx : DSA.bigintToBytes x with
  | none =>
    cases hh : DSA.bigintToBytes h with
    | none =>
      rw [hx, hh] at hk
      exact absurd hk (by simp)
    | some mB =>
      rw [hx, hh] at hk
      exact absurd hk (by simp)
  | some xB =>
    cases hh : DSA.bigintToBytes h with
    | none =>
      rw [hx, hh] at hk
      exact absurd hk (by simp)
    | some mB =>
      rw [hx, hh] at hk
      dsimp only at hk
      exact dsaGenKLoop_fresh H q fuel _ _ _ used k used2 hk

/-- **C2** (corrected).  The true statement: for ECDSA the claim holds — the
nonce derivation is a pure function of the private key and reduced digest,
and `sign`'s output values do not depend on the instance's mod-inverse cache
(two runs from any coherent caches agree; the empty cache is coherent and
every `sign` call preserves coherence, so repeated calls on one instance
produce identical `k`, `r` and `s`).  For DSA the claim is false: the
`usedKValues` set makes the accepted `k` of every call fresh relative to the
set, so a second call with the identical `(privateKey, messageHash, q)`
derives a *different* `k` (final two conjuncts; `DigSig.claim_C2_counterexample`
exhibits this concretely). -/
theorem claim_C2 (hash : List Char → List Char)
    (hmac : List ℕ → List ℕ → List ℕ) (message dHex : List Char)
    (kFuel fuel : ℕ) (c c' : List (List Char × ℤ))
    (hc : ECDSA.InvCacheOK c) (hc' : ECDSA.InvCacheOK c')
    (H : List ℕ → List ℕ) (q : ℤ) (used0 : List (List Char)) (x h : ℤ)
    (dfuel : ℕ) (k1 k2 : ℤ) (u1 u2 : List (List Char))
    (h1 : DSA.generateDeterministicK H q used0 x h dfuel = some (k1, u1))
    (h2 : DSA.generateDeterministicK H q u1 x h dfuel = some (k2, u2)) :
    (ECDSA.sign hash hmac message dHex kFuel fuel c).map Prod.fst
        = (ECDSA.sign hash hmac message dHex kFuel fuel c').map Prod.fst ∧
    (∀ res c2, ECDSA.sign hash hmac message dHex kFuel fuel c = some (res, c2) →
        ECDSA.InvCacheOK c2) ∧
    ECDSA.InvCacheOK [] ∧
    k2 ≠ k1 ∧ u1 = intToDec k1 :: used0 := by
  obtain ⟨hn1, he1⟩ := dsaGenerateDeterministicK_fresh H q used0 x h dfuel k1 u1 h1
  obtain ⟨hn2, he2⟩ := dsaGenerateDeterministicK_fresh H q u1 x h dfuel k2 u2 h2
  refine ⟨sign_val hash hmac message dHex kFuel fuel c c' hc hc',
    fun res c2 hok => sign_preserves hash hmac message dHex kFuel fuel c hc
      res c2 hok,
    invCacheOK_nil, ?_, he1⟩
  intro heq
  subst heq
  rw [he1] at hn2
  exact hn2 (List.mem_cons_self _ _)

/-- Witness for C2, instantiating the ECDSA side at concrete arguments with
the empty (coherent) cache and the DSA side at the concrete two-call run used
in the counterexample (`q = 2^255 + 95`, private key 1, message hash 1,
a sum digest standing in for the abstracted SHA-256 primitive). -/
theorem claim_C2_witness :
    ((ECDSA.sign (fun _ => []) (fun _ _ => []) [] ['2'] 3 2 []).map Prod.fst
        = (ECDSA.sign (fun _ => []) (fun _ _ => []) [] ['2'] 3 2 []).map
            Prod.fst) ∧
    (∀ res c2,
        ECDSA.sign (fun _ => []) (fun _ _ => []) [] ['2'] 3 2 []
            = some (res, c2) →
        ECDSA.InvCacheOK c2) ∧
    ECDSA.InvCacheOK [] ∧
    (12666533536208255997544736580071083792588862752716594175946179647679345262850 : ℤ)
        ≠ 32568298873871977085970999628439317954869641367123566120227951899039414419714 ∧
    ([intToDec 32568298873871977085970999628439317954869641367123566120227951899039414419714]
        : List (List Char))
      = intToDec 32568298873871977085970999628439317954869641367123566120227951899039414419714
          :: [] := by
  exact claim_C2 (fun _ => []) (fun _ _ => []) [] ['2'] 3 2 [] []
    (fun a m v hv => by simp [DSA.assocFind] at hv)
    (fun a m v hv => by simp [DSA.assocFind] at hv)
    (fun data => [data.foldl (fun a b => a + b) 0 % 256]) (2 ^ 255 + 95) [] 1 1 5
    32568298873871977085970999628439317954869641367123566120227951899039414419714
    12666533536208255997544736580071083792588862752716594175946179647679345262850
    [intToDec 32568298873871977085970999628439317954869641367123566120227951899039414419714]
    [intToDec 12666533536208255997544736580071083792588862752716594175946179647679345262850,
      intToDec 32568298873871977085970999628439317954869641367123566120227951899039414419714]
    (by decide) (by decide)

/-- Counterexample to the claim as frozen: on a fixed DSA instance state
(`q = 2^255 + 95`, the digest primitive instantiated with a byte-sum function), the first
`generateDeterministicK(1, 1)` call returns one `k` and the second call with
the *identical* inputs — differing only in the `usedKValues` set the first
call populated — returns a different `k`, so identical `(privateKey,
message)` do not imply identical nonces for DSA. -/
theorem claim_C2_counterexample :
    (DSA.generateDeterministicK (fun data => [data.foldl (fun a b => a + b) 0 % 256]) (2 ^ 255 + 95) [] 1 1 5).map
        Prod.fst
      = some
        32568298873871977085970999628439317954869641367123566120227951899039414419714 ∧
    ((DSA.generateDeterministicK (fun data => [data.foldl (fun a b => a + b) 0 % 256]) (2 ^ 255 + 95) [] 1 1 5).bind
        (fun r1 =>
          DSA.generateDeterministicK (fun data => [data.foldl (fun a b => a + b) 0 % 256]) (2 ^ 255 + 95) r1.2 1 1 5)).map
        Prod.fst
      = some
        12666533536208255997544736580071083792588862752716594175946179647679345262850 ∧
    (32568298873871977085970999628439317954869641367123566120227951899039414419714 : ℤ)
      ≠ 12666533536208255997544736580071083792588862752716594175946179647679345262850 := by
  exact ⟨by decide, by decide, by decide⟩

end DigSig
